import Mathlib

/-!
Verification of the image-align-tool ordering and grid-layout engine.

The source is a Miro board plugin (several near-duplicate revisions of
`app.js`).  The definitions below are a shallow embedding of the relevant
source functions: coordinates and sizes are rationals, titles are lists of
characters, the board item is a record, and the external collaborators
(pixel sampling, board sync) are modelled as explicit inputs / returned
values.  JavaScript's stable `Array.prototype.sort` is modelled by
`List.insertionSort` (which is stable) over index-tagged entries, with the
original index used as the final tie-break exactly where the source
comparators do the same.
-/

/-- A board image item.  `x`,`y` are the centre position, `title` the label,
`metadataBrightness` models `item.metadata[METADATA_KEY].brightness`, and
`url` models presence of an image source reference (`getImageUrlFromWidget`):
`none` means no URL field was found on the widget. -/
structure Item where
  id : Nat
  title : List Char
  x : ℚ
  y : ℚ
  width : ℚ
  height : ℚ
  metadataBrightness : Option ℚ
  url : Option Nat
  deriving DecidableEq, Repr

/-- `sizeMode` form field: 'none' | 'width' | 'height'. -/
inductive SizeMode where
  | none | width | height
  deriving DecidableEq, Repr

/-- `startCorner` form field. -/
inductive Corner where
  | topLeft | topRight | bottomLeft | bottomRight
  deriving DecidableEq, Repr

/-- `startCorner.startsWith("top")` in the source. -/
def Corner.fromTop : Corner → Bool
  | .topLeft => true
  | .topRight => true
  | .bottomLeft => false
  | .bottomRight => false

/-- `startCorner.endsWith("left")` in the source. -/
def Corner.fromLeft : Corner → Bool
  | .topLeft => true
  | .topRight => false
  | .bottomLeft => true
  | .bottomRight => false

/-- The layout configuration read from the form. -/
structure LayoutConfig where
  imagesPerRow : Nat
  horizontalGap : ℚ
  verticalGap : ℚ
  sizeMode : SizeMode
  startCorner : Corner
  deriving DecidableEq, Repr

/-- `Math.min(...list)` for a non-empty list (the source always guards
non-emptiness before calling it). -/
def minQ : List ℚ → ℚ
  | [] => 0
  | q :: qs => qs.foldl min q

/-- `Math.max(...list)` for a non-empty list. -/
def maxQ : List ℚ → ℚ
  | [] => 0
  | q :: qs => qs.foldl max q

/-- Left edge of an item (`img.x - img.width / 2`). -/
def itemLeft (i : Item) : ℚ := i.x - i.width / 2

/-- Top edge of an item. -/
def itemTop (i : Item) : ℚ := i.y - i.height / 2

/-- Right edge of an item. -/
def itemRight (i : Item) : ℚ := i.x + i.width / 2

/-- Bottom edge of an item. -/
def itemBottom (i : Item) : ℚ := i.y + i.height / 2

/-- `minLeft` of the selection bounding box. -/
def bboxLeft (l : List Item) : ℚ := minQ (l.map itemLeft)

/-- `minTop` of the selection bounding box. -/
def bboxTop (l : List Item) : ℚ := minQ (l.map itemTop)

/-- `maxRight` of the selection bounding box. -/
def bboxRight (l : List Item) : ℚ := maxQ (l.map itemRight)

/-- `maxBottom` of the selection bounding box. -/
def bboxBottom (l : List Item) : ℚ := maxQ (l.map itemBottom)

/-- `array.map((a, index) => f(index, a))` starting from index `k`. -/
def mapWithIndexFrom (f : Nat → α → β) : Nat → List α → List β
  | _, [] => []
  | k, a :: rest => f k a :: mapWithIndexFrom f (k + 1) rest

/-- Scanning state of the regex `/(\d+)(?!.*\d)/`: `cur` is the digit run
currently being read, `last` the most recently completed run.  The final
result is the last maximal run of digits in the string. -/
def lastDigitRunAux : List Char → List Char → List Char → List Char
  | [], cur, last => if cur.isEmpty then last else cur
  | c :: rest, cur, last =>
    if c.isDigit then lastDigitRunAux rest (cur ++ [c]) last
    else lastDigitRunAux rest [] (if cur.isEmpty then last else cur)

/-- The last maximal run of decimal digits in `s` (empty if none). -/
def lastDigitRun (s : List Char) : List Char := lastDigitRunAux s [] []

/-- `Number.parseInt(digits, 10)` for a run of decimal digits. -/
def digitsToNat (l : List Char) : Nat :=
  l.foldl (fun acc c => acc * 10 + (c.toNat - 48)) 0

/-- `extractTrailingNumber` from `app.js`: match `/(\d+)(?!.*\d)/` (the last
group of digits anywhere in the string) and parse it in base 10.  `parseInt`
of a non-empty digit run is never `NaN`, so the `Number.isNaN` guard of the
source is dead and the result is `none` exactly when no digit run exists. -/
def extractTrailingNumber (s : List Char) : Option Nat :=
  let run := lastDigitRun s
  if run.isEmpty then none else some (digitsToNat run)

/-- `String.prototype.toLowerCase` (ASCII letters; titles in scope are ASCII). -/
def lowerStr (s : List Char) : List Char := s.map Char.toLower

/-- `compareByGeometry` from the source: if the vertical difference exceeds
half the smaller height, compare by `y`, else compare by `x`.  Returns the
comparator value (`dy` or `dx`). -/
def compareByGeometry (a b : Item) : ℚ :=
  if min a.height b.height / 2 < |a.y - b.y| then a.y - b.y else a.x - b.x

example : extractTrailingNumber "Name_01".data = some 1 := by decide
example : extractTrailingNumber "Name0003".data = some 3 := by decide
example : extractTrailingNumber "Name 10a2".data = some 2 := by decide
example : extractTrailingNumber "abc".data = none := by decide

/-! ## Grid layout (`alignImagesInGivenOrder`) -/

/-- The optional uniform-resize step of `alignImagesInGivenOrder`: for
`sizeMode = 'width'` every item's width is set to the minimum width of the
selection (the source only assigns `img.width`; any aspect-ratio adjustment
happens inside the external board).  Symmetric for `'height'`. -/
def applyResize (cfg : LayoutConfig) (images : List Item) : List Item :=
  match cfg.sizeMode with
  | SizeMode.none => images
  | SizeMode.width =>
    images.map (fun img => { img with width := minQ (images.map Item.width) })
  | SizeMode.height =>
    images.map (fun img => { img with height := minQ (images.map Item.height) })

/-- `cols = Math.max(1, imagesPerRow)`. -/
def colsOf (cfg : LayoutConfig) : Nat := max 1 cfg.imagesPerRow

/-- `rows = Math.ceil(total / cols)`. -/
def rowsOf (cfg : LayoutConfig) (total : Nat) : Nat :=
  (total + colsOf cfg - 1) / colsOf cfg

/-- `cellWidth = maxWidth + horizontalGap` of the uniform variant. -/
def cellW (images : List Item) (cfg : LayoutConfig) : ℚ :=
  maxQ (images.map Item.width) + cfg.horizontalGap

/-- `cellHeight = maxHeight + verticalGap` of the uniform variant. -/
def cellH (images : List Item) (cfg : LayoutConfig) : ℚ :=
  maxQ (images.map Item.height) + cfg.verticalGap

/-- `gridWidth = cols*maxWidth + (cols-1)*horizontalGap`. -/
def gridWU (images : List Item) (cfg : LayoutConfig) : ℚ :=
  (colsOf cfg : ℚ) * maxQ (images.map Item.width)
    + ((colsOf cfg - 1 : Nat) : ℚ) * cfg.horizontalGap

/-- `gridHeight = rows*maxHeight + (rows-1)*verticalGap`. -/
def gridHU (images : List Item) (cfg : LayoutConfig) : ℚ :=
  (rowsOf cfg images.length : ℚ) * maxQ (images.map Item.height)
    + ((rowsOf cfg images.length - 1 : Nat) : ℚ) * cfg.verticalGap

/-- `originTop`: `minTop` for top anchors, else `maxBottom - gridHeight`. -/
def originTopU (images : List Item) (cfg : LayoutConfig) : ℚ :=
  if cfg.startCorner.fromTop then bboxTop images else bboxBottom images - gridHU images cfg

/-- `originLeft`: `minLeft` for left anchors, else `maxRight - gridWidth`. -/
def originLeftU (images : List Item) (cfg : LayoutConfig) : ℚ :=
  if cfg.startCorner.fromLeft then bboxLeft images else bboxRight images - gridWU images cfg

/-- `computeGridPosition`, row component: `rowIndex` counted from the anchor
corner, inverted for bottom anchors. -/
def rowFT (cfg : LayoutConfig) (total i : Nat) : Nat :=
  if cfg.startCorner.fromTop then i / colsOf cfg
  else rowsOf cfg total - 1 - i / colsOf cfg

/-- `computeGridPosition`, column component, inverted for right anchors. -/
def colFL (cfg : LayoutConfig) (i : Nat) : Nat :=
  if cfg.startCorner.fromLeft then i % colsOf cfg
  else colsOf cfg - 1 - i % colsOf cfg

/-- Cell placement of the uniform variant: the item sits at the top-left of
its cell, so its centre is `cellCorner + size/2`. -/
def placeUniform (images : List Item) (cfg : LayoutConfig) (i : Nat) (img : Item) : Item :=
  { img with
    x := originLeftU images cfg + (colFL cfg i : ℚ) * cellW images cfg + img.width / 2,
    y := originTopU images cfg + (rowFT cfg images.length i : ℚ) * cellH images cfg
      + img.height / 2 }

/-- Uniform-cell variant of `alignImagesInGivenOrder` (`app.js`, and
`computeGridPosition` of the `onAlignSubmit` revision): every cell is
`maxWidth × maxHeight`, the row/column indices are inverted per anchor
corner, and each item is placed at the top-left of its cell. -/
def alignUniform (images0 : List Item) (cfg : LayoutConfig) : List Item :=
  if images0.isEmpty then images0
  else mapWithIndexFrom (placeUniform (applyResize cfg images0) cfg) 0
    (applyResize cfg images0)

/-- Items of grid row `r` (indices `r*cols .. r*cols+cols-1`); the packed
variant's loops group items by `Math.floor(i / cols)`. -/
def rowSliceP (images : List Item) (cols r : Nat) : List Item :=
  (images.drop (r * cols)).take cols

/-- `rowHeights[r]` of the packed variant: running maximum (from 0) of the
heights of the items in row `r`. -/
def rowHeightP (images : List Item) (cols r : Nat) : ℚ :=
  (rowSliceP images cols r).foldl (fun acc img => max acc img.height) 0

/-- `rowWidths[r]` of the packed variant: item widths plus a horizontal gap
before every item except when the accumulated width is still zero. -/
def rowWidthP (images : List Item) (cols : Nat) (hGap : ℚ) (r : Nat) : ℚ :=
  (rowSliceP images cols r).foldl
    (fun acc img => (if 0 < acc then acc + hGap else acc) + img.width) 0

/-- `rowTop[r]` of the packed variant: cumulative row heights plus gaps. -/
def rowTopP (images : List Item) (cols : Nat) (vGap : ℚ) : Nat → ℚ
  | 0 => 0
  | r + 1 => rowTopP images cols vGap r + rowHeightP images cols r + vGap

/-- `rowCursorX` of the packed variant at index `i`: the widths plus gaps of
the items that precede `i` inside its own row. -/
def cursorXP (images : List Item) (cols : Nat) (hGap : ℚ) (i : Nat) : ℚ :=
  ((images.drop (i / cols * cols)).take (i - i / cols * cols)).foldl
    (fun acc img => acc + (img.width + hGap)) 0

/-- `gridWidth = Math.max(...rowWidths)` of the packed variant. -/
def gridWP (images : List Item) (cfg : LayoutConfig) : ℚ :=
  maxQ ((List.range (rowsOf cfg images.length)).map
    (rowWidthP images (colsOf cfg) cfg.horizontalGap))

/-- `gridHeight = sum(rowHeights) + verticalGap*(rows-1)` of the packed
variant. -/
def gridHP (images : List Item) (cfg : LayoutConfig) : ℚ :=
  ((List.range (rowsOf cfg images.length)).map
      (rowHeightP images (colsOf cfg))).foldl (· + ·) 0
    + cfg.verticalGap * ((rowsOf cfg images.length - 1 : Nat) : ℚ)

/-- Packed `originTop` (same corner rule as the uniform variant, with the
packed grid height). -/
def originTopP (images : List Item) (cfg : LayoutConfig) : ℚ :=
  if cfg.startCorner.fromTop then bboxTop images else bboxBottom images - gridHP images cfg

/-- Packed `originLeft`. -/
def originLeftP (images : List Item) (cfg : LayoutConfig) : ℚ :=
  if cfg.startCorner.fromLeft then bboxLeft images else bboxRight images - gridWP images cfg

/-- `baseX[i]` of the packed variant: horizontal cursor plus half width. -/
def baseXP (images : List Item) (cfg : LayoutConfig) (i : Nat) (img : Item) : ℚ :=
  cursorXP images (colsOf cfg) cfg.horizontalGap i + img.width / 2

/-- `baseY[i]` of the packed variant: vertically centred on its row. -/
def baseYP (images : List Item) (cfg : LayoutConfig) (i : Nat) : ℚ :=
  rowTopP images (colsOf cfg) cfg.verticalGap (i / colsOf cfg)
    + rowHeightP images (colsOf cfg) (i / colsOf cfg) / 2

/-- Packed placement: mirror the top-left-relative coordinates across the
grid's own width/height for right/bottom anchors (`flipX`/`flipY`), then
translate to the anchor origin. -/
def placePacked (images : List Item) (cfg : LayoutConfig) (i : Nat) (img : Item) : Item :=
  { img with
    x := originLeftP images cfg
      + (if cfg.startCorner.fromLeft then baseXP images cfg i img
         else gridWP images cfg - baseXP images cfg i img),
    y := originTopP images cfg
      + (if cfg.startCorner.fromTop then baseYP images cfg i
         else gridHP images cfg - baseYP images cfg i) }

/-- Packed-rows variant of `alignImagesInGivenOrder` (the later `app.js`
revisions): row height is the maximum height in that row, items advance a
horizontal cursor inside the row and are vertically centred on the row;
top-left-relative coordinates are mirrored across the grid's own width and
height for right/bottom anchors, then translated to the anchor origin. -/
def alignPacked (images0 : List Item) (cfg : LayoutConfig) : List Item :=
  if images0.isEmpty then images0
  else mapWithIndexFrom (placePacked (applyResize cfg images0) cfg) 0
    (applyResize cfg images0)

/-- Two axis-aligned rectangles (given by centre and size) overlap when they
intersect with positive area on both axes. -/
def overlaps (a b : Item) : Prop :=
  |a.x - b.x| < (a.width + b.width) / 2 ∧ |a.y - b.y| < (a.height + b.height) / 2

/-! ## Ordering strategies -/

/-- Per-item sort record built by `sortImagesByNumber`:
`{ img, index, lower, num }` with `lower = title.toLowerCase()` and
`num = extractTrailingNumber(title)`. -/
structure NumMeta where
  img : Item
  index : Nat
  lower : List Char
  num : Option Nat
  deriving DecidableEq, Repr

/-- Label/index tie-break shared by both branches of the number comparator:
`a.lower < b.lower ? -1 : a.lower > b.lower ? 1 : a.index - b.index ≤ 0`. -/
def tieLe (a b : NumMeta) : Prop :=
  a.lower < b.lower ∨ (a.lower = b.lower ∧ a.index ≤ b.index)

/-- Branch structure of the `meta.sort` comparator of `sortImagesByNumber`:
numbered entries first; two numbered entries by number, then tie-break; two
unnumbered entries by tie-break directly.  `numLeAux a.num b.num tie` holds
iff the comparator returns a value `≤ 0`. -/
def numLeAux : Option Nat → Option Nat → Prop → Prop
  | some x, some y, tie => x < y ∨ (x = y ∧ tie)
  | some _, none, _ => True
  | none, some _, _ => False
  | none, none, tie => tie

/-- `numLe a b` iff the `sortImagesByNumber` comparator orders `a` not after
`b` (the original index makes this antisymmetric, i.e. JS sort stability is
irrelevant to the result). -/
def numLe (a b : NumMeta) : Prop := numLeAux a.num b.num (tieLe a b)

/-- Embed the "numbered first, ascending" rule into `WithTop ℕ`:
a missing number sorts after every present number. -/
def optTop : Option Nat → WithTop Nat
  | Option.none => ⊤
  | Option.some x => (x : WithTop Nat)

/-- Lexicographic sort key equivalent to the number comparator. -/
def metaKey (m : NumMeta) : (WithTop Nat) ×ₗ ((List Char) ×ₗ Nat) :=
  toLex (optTop m.num, toLex (m.lower, m.index))

theorem tieLe_iff (a b : NumMeta) :
    tieLe a b ↔ toLex (a.lower, a.index) ≤ toLex (b.lower, b.index) := by
  simp [tieLe, Prod.Lex.le_iff]

theorem numLe_iff (a b : NumMeta) : numLe a b ↔ metaKey a ≤ metaKey b := by
  unfold numLe metaKey
  rcases a.num with _ | x <;> rcases b.num with _ | y <;>
    simp [numLeAux, optTop, Prod.Lex.le_iff, tieLe_iff a b]

instance : DecidableRel numLe := fun a b => decidable_of_iff _ (numLe_iff a b).symm

instance : IsTotal NumMeta numLe :=
  ⟨fun a b => by rw [numLe_iff, numLe_iff]; exact le_total _ _⟩

instance : IsTrans NumMeta numLe :=
  ⟨fun a b c hab hbc => by
    rw [numLe_iff] at hab hbc ⊢; exact le_trans hab hbc⟩

theorem optTop_injective : Function.Injective optTop := by
  intro o1 o2 h
  cases o1 <;> cases o2 <;> simp [optTop] at h ⊢ <;> exact_mod_cast h

/-- The number comparator is antisymmetric: mutual `numLe` forces equal
number, equal lowercase label and equal original index. -/
theorem numLe_antisymm {a b : NumMeta} (hab : numLe a b) (hba : numLe b a) :
    a.num = b.num ∧ a.lower = b.lower ∧ a.index = b.index := by
  have hk : metaKey a = metaKey b :=
    le_antisymm ((numLe_iff a b).mp hab) ((numLe_iff b a).mp hba)
  unfold metaKey at hk
  have h1 := toLex.injective hk
  have h2 := Prod.mk.injEq .. ▸ h1
  obtain ⟨hn, ht⟩ := Prod.mk.injEq _ _ _ _ ▸ h1
  have ht' := toLex.injective ht
  obtain ⟨hl, hi⟩ := Prod.mk.injEq _ _ _ _ ▸ ht'
  exact ⟨optTop_injective hn, hl, hi⟩

/-- The index-tagged records `meta` of `sortImagesByNumber`. -/
def metaOf (images : List Item) : List NumMeta :=
  mapWithIndexFrom (fun i img =>
    { img := img, index := i, lower := lowerStr img.title,
      num := extractTrailingNumber img.title }) 0 images

/-- The non-strict number ordering (`meta.sort(...)` followed by
`meta.map(m => m.img)`).  `List.insertionSort` is stable, and `numLe` embeds
the original index as final tie-break, exactly as the source comparator. -/
def numberOrderSort (images : List Item) : List Item :=
  (List.insertionSort numLe (metaOf images)).map NumMeta.img

/-- `sortByGeometry` comparator on index-tagged items: by `y`, then by `x`,
then stable (original index). -/
def geoLe (a b : Nat × Item) : Prop :=
  a.2.y < b.2.y ∨ (a.2.y = b.2.y ∧ (a.2.x < b.2.x ∨ (a.2.x = b.2.x ∧ a.1 ≤ b.1)))

/-- Lexicographic key equivalent to `geoLe`. -/
def geoKey (p : Nat × Item) : ℚ ×ₗ (ℚ ×ₗ Nat) := toLex (p.2.y, toLex (p.2.x, p.1))

theorem geoLe_iff (a b : Nat × Item) : geoLe a b ↔ geoKey a ≤ geoKey b := by
  simp [geoLe, geoKey, Prod.Lex.le_iff]

instance : DecidableRel geoLe := fun a b => decidable_of_iff _ (geoLe_iff a b).symm

instance : IsTotal (Nat × Item) geoLe :=
  ⟨fun a b => by rw [geoLe_iff, geoLe_iff]; exact le_total _ _⟩

instance : IsTrans (Nat × Item) geoLe :=
  ⟨fun a b c hab hbc => by
    rw [geoLe_iff] at hab hbc ⊢; exact le_trans hab hbc⟩

/-- `sortByGeometry` from the source: strict top-to-bottom, left-to-right
order (`a.y` then `a.x`), stable on full ties. -/
def sortByGeometry (images : List Item) : List Item :=
  (List.insertionSort geoLe (mapWithIndexFrom Prod.mk 0 images)).map Prod.snd

/-- `String(counter)` for the generated sequential labels. -/
def natTitle (n : Nat) : List Char := Nat.toDigits 10 n

/-- The empty-title pre-pass of `sortImagesByNumber`: order by geometry and
assign titles "1", "2", ... in that order (`img.title = String(counter)`). -/
def renumberByGeometry (images : List Item) : List Item :=
  mapWithIndexFrom (fun i img => { img with title := natTitle (i + 1) }) 0
    (sortByGeometry images)

/-- `sortImagesByNumber` from the source: if any title is empty, renumber all
items by geometry first (a title mutation synced to the board), then apply
the non-strict number ordering. -/
def sortImagesByNumber (images : List Item) : List Item :=
  numberOrderSort
    (if images.any (fun img => img.title.isEmpty) then renumberByGeometry images
     else images)

/-- The luminance value `sortImagesByColor` associates to an item it keeps:
metadata brightness if present, else the sampled value, else the neutral
fallback `0.5` when loading/sampling fails.  `sample` models the external
`loadImage` + `getBlurredAverageLuminanceFromImageElement` pipeline keyed by
the widget's URL. -/
def lum (sample : Nat → Option ℚ) (img : Item) : ℚ :=
  match img.metadataBrightness with
  | some y => y
  | none =>
    match img.url with
    | some u =>
      match sample u with
      | some y => y
      | none => 1 / 2
    | none => 1 / 2

/-- The `meta` list built by the loop of `sortImagesByColor`: metadata
brightness first; otherwise sample by URL with neutral fallback `0.5` on
failure; an item with no URL at all is skipped (`continue`). -/
def colorMeta (sample : Nat → Option ℚ) (images : List Item) : List (Item × ℚ) :=
  images.filterMap (fun img =>
    match img.metadataBrightness with
    | some y => some (img, y)
    | none =>
      match img.url with
      | none => none
      | some u =>
        match sample u with
        | none => some (img, 1 / 2)
        | some y => some (img, y))

/-- `meta.sort((a, b) => b.y - a.y)` on index-tagged entries: brighter first,
stable on ties. -/
def colorLe (a b : Nat × (Item × ℚ)) : Prop :=
  b.2.2 < a.2.2 ∨ (a.2.2 = b.2.2 ∧ a.1 ≤ b.1)

/-- Lexicographic key equivalent to `colorLe` (negated luminance). -/
def colorKey (p : Nat × (Item × ℚ)) : ℚ ×ₗ Nat := toLex (-p.2.2, p.1)

theorem colorLe_iff (a b : Nat × (Item × ℚ)) :
    colorLe a b ↔ colorKey a ≤ colorKey b := by
  simp only [colorLe, colorKey, Prod.Lex.le_iff, neg_lt_neg_iff, neg_inj]

instance : DecidableRel colorLe := fun a b => decidable_of_iff _ (colorLe_iff a b).symm

instance : IsTotal (Nat × (Item × ℚ)) colorLe :=
  ⟨fun a b => by rw [colorLe_iff, colorLe_iff]; exact le_total _ _⟩

instance : IsTrans (Nat × (Item × ℚ)) colorLe :=
  ⟨fun a b c hab hbc => by
    rw [colorLe_iff] at hab hbc ⊢; exact le_trans hab hbc⟩

/-- `sortImagesByColor` from the source: build `meta` (dropping URL-less,
metadata-less items), fall back to `sortByGeometry` on the whole input when
`meta` is empty, else sort `meta` by luminance descending and return the
items. -/
def sortImagesByColor (sample : Nat → Option ℚ) (images : List Item) : List Item :=
  let meta := colorMeta sample images
  if meta.isEmpty then sortByGeometry images
  else (List.insertionSort colorLe (mapWithIndexFrom Prod.mk 0 meta)).map
    (fun p => p.2.1)

/-- `sortingSortMode` form field of `handleSortingSubmit`. -/
inductive SortMode where
  | number | color
  deriving DecidableEq, Repr

/-- Strategy dispatch of `handleSortingSubmit`: `'color'` uses
`sortImagesByColor`, anything else uses `sortImagesByNumber`. -/
def orderImages (sample : Nat → Option ℚ) (mode : SortMode)
    (images : List Item) : List Item :=
  match mode with
  | SortMode.color => sortImagesByColor sample images
  | SortMode.number => sortImagesByNumber images

/-- Forget the title (for frame properties about everything but the label). -/
def stripTitle (img : Item) : Item := { img with title := [] }

/-- Forget the position (for frame properties about everything but `x`,`y`). -/
def stripPos (img : Item) : Item := { img with x := 0, y := 0 }

/-- The items `sortImagesByColor` keeps: those with a metadata brightness or
at least a URL. -/
def keptItems (images : List Item) : List Item :=
  images.filter (fun img => img.metadataBrightness.isSome || img.url.isSome)

/-! ## Generic lemmas about the embedding's building blocks -/

theorem mapWithIndexFrom_length (f : Nat → α → β) (k : Nat) (l : List α) :
    (mapWithIndexFrom f k l).length = l.length := by
  induction l generalizing k with
  | nil => rfl
  | cons a rest ih => simp [mapWithIndexFrom, ih]

theorem mapWithIndexFrom_getElem (f : Nat → α → β) (k : Nat) (l : List α) (i : Nat)
    (h1 : i < (mapWithIndexFrom f k l).length) (h2 : i < l.length) :
    (mapWithIndexFrom f k l)[i] = f (k + i) l[i] := by
  induction l generalizing k i with
  | nil => simp at h2
  | cons a rest ih =>
    cases i with
    | zero => rfl
    | succ j =>
      have h1' : j < (mapWithIndexFrom f (k + 1) rest).length := by
        rw [mapWithIndexFrom_length]
        simpa using h2
      have := ih (k + 1) j h1' (by simpa using h2)
      simpa [mapWithIndexFrom, Nat.add_assoc, Nat.add_comm 1 j] using this

theorem mapWithIndexFrom_map (g : β → γ) (f : Nat → α → β) (k : Nat) (l : List α) :
    (mapWithIndexFrom f k l).map g = mapWithIndexFrom (fun i a => g (f i a)) k l := by
  induction l generalizing k with
  | nil => rfl
  | cons a rest ih => simp [mapWithIndexFrom, ih]

theorem mapWithIndexFrom_indep (h : Nat → β) (k : Nat) (l : List α)
    (f : Nat → α → β) (hf : ∀ i a, f i a = h i) :
    mapWithIndexFrom f k l = (List.range l.length).map (fun i => h (k + i)) := by
  induction l generalizing k with
  | nil => rfl
  | cons a rest ih =>
    simp only [mapWithIndexFrom, List.length_cons, List.range_succ_eq_map,
      List.map_cons, List.map_map, hf, ih (k + 1)]
    refine congrArg₂ _ (by simp) ?_
    refine congrArg₂ _ ?_ rfl
    funext i
    simp [Function.comp, Nat.add_assoc, Nat.add_comm 1 i]

theorem mapWithIndexFrom_cancel (f : Nat → α → β) (g : β → α) (k : Nat) (l : List α)
    (hgf : ∀ i a, g (f i a) = a) :
    (mapWithIndexFrom f k l).map g = l := by
  induction l generalizing k with
  | nil => rfl
  | cons a rest ih => simp [mapWithIndexFrom, hgf, ih]

theorem mem_mapWithIndexFrom {f : Nat → α → β} {k : Nat} {l : List α} {b : β}
    (h : b ∈ mapWithIndexFrom f k l) : ∃ i a, a ∈ l ∧ b = f i a := by
  induction l generalizing k with
  | nil => simp [mapWithIndexFrom] at h
  | cons a rest ih =>
    rcases List.mem_cons.mp h with rfl | h
    · exact ⟨k, a, List.mem_cons_self .., rfl⟩
    · obtain ⟨i, a', ha', hb⟩ := ih h
      exact ⟨i, a', List.mem_cons_of_mem _ ha', hb⟩

theorem foldl_min_le_init (l : List ℚ) (q : ℚ) : l.foldl min q ≤ q := by
  induction l generalizing q with
  | nil => exact le_refl q
  | cons a rest ih => exact le_trans (ih (min q a)) (min_le_left q a)

theorem foldl_min_le_mem {l : List ℚ} {x : ℚ} (h : x ∈ l) (q : ℚ) :
    l.foldl min q ≤ x := by
  induction l generalizing q with
  | nil => simp at h
  | cons a rest ih =>
    rcases List.mem_cons.mp h with rfl | h'
    · exact le_trans (foldl_min_le_init rest (min q x)) (min_le_right q x)
    · exact ih h' (min q a)

theorem foldl_min_mem_or (l : List ℚ) (q : ℚ) :
    l.foldl min q = q ∨ l.foldl min q ∈ l := by
  induction l generalizing q with
  | nil => exact Or.inl rfl
  | cons a rest ih =>
    rcases ih (min q a) with h | h
    · rcases min_choice q a with hm | hm
      · exact Or.inl (by rw [List.foldl_cons, h, hm])
      · exact Or.inr (by rw [List.foldl_cons, h, hm]; exact List.mem_cons_self ..)
    · exact Or.inr (List.mem_cons_of_mem _ h)

theorem minQ_le {l : List ℚ} {x : ℚ} (h : x ∈ l) : minQ l ≤ x := by
  cases l with
  | nil => simp at h
  | cons a rest =>
    rcases List.mem_cons.mp h with rfl | h'
    · exact foldl_min_le_init rest x
    · exact foldl_min_le_mem h' a

theorem minQ_mem {l : List ℚ} (h : l ≠ []) : minQ l ∈ l := by
  cases l with
  | nil => exact absurd rfl h
  | cons a rest =>
    rcases foldl_min_mem_or rest a with h' | h'
    · have he : minQ (a :: rest) = a := h'
      rw [he]; exact List.mem_cons_self ..
    · exact List.mem_cons_of_mem _ h'

theorem minQ_eq_of {l : List ℚ} {a : ℚ} (hmem : a ∈ l) (hle : ∀ x ∈ l, a ≤ x) :
    minQ l = a :=
  le_antisymm (minQ_le hmem) (hle _ (minQ_mem (List.ne_nil_of_mem hmem)))

theorem foldl_max_init_le (l : List ℚ) (q : ℚ) : q ≤ l.foldl max q := by
  induction l generalizing q with
  | nil => exact le_refl q
  | cons a rest ih => exact le_trans (le_max_left q a) (ih (max q a))

theorem foldl_max_mem_le {l : List ℚ} {x : ℚ} (h : x ∈ l) (q : ℚ) :
    x ≤ l.foldl max q := by
  induction l generalizing q with
  | nil => simp at h
  | cons a rest ih =>
    rcases List.mem_cons.mp h with rfl | h'
    · exact le_trans (le_max_right q x) (foldl_max_init_le rest (max q x))
    · exact ih h' (max q a)

theorem foldl_max_mem_or (l : List ℚ) (q : ℚ) :
    l.foldl max q = q ∨ l.foldl max q ∈ l := by
  induction l generalizing q with
  | nil => exact Or.inl rfl
  | cons a rest ih =>
    rcases ih (max q a) with h | h
    · rcases max_choice q a with hm | hm
      · exact Or.inl (by rw [List.foldl_cons, h, hm])
      · exact Or.inr (by rw [List.foldl_cons, h, hm]; exact List.mem_cons_self ..)
    · exact Or.inr (List.mem_cons_of_mem _ h)

theorem le_maxQ {l : List ℚ} {x : ℚ} (h : x ∈ l) : x ≤ maxQ l := by
  cases l with
  | nil => simp at h
  | cons a rest =>
    rcases List.mem_cons.mp h with rfl | h'
    · exact foldl_max_init_le rest x
    · exact foldl_max_mem_le h' a

theorem maxQ_mem {l : List ℚ} (h : l ≠ []) : maxQ l ∈ l := by
  cases l with
  | nil => exact absurd rfl h
  | cons a rest =>
    rcases foldl_max_mem_or rest a with h' | h'
    · have he : maxQ (a :: rest) = a := h'
      rw [he]; exact List.mem_cons_self ..
    · exact List.mem_cons_of_mem _ h'

theorem maxQ_eq_of {l : List ℚ} {a : ℚ} (hmem : a ∈ l) (hle : ∀ x ∈ l, x ≤ a) :
    maxQ l = a :=
  le_antisymm (hle _ (maxQ_mem (List.ne_nil_of_mem hmem))) (le_maxQ hmem)

theorem minQ_const {l : List ℚ} {c : ℚ} (hne : l ≠ []) (h : ∀ x ∈ l, x = c) :
    minQ l = c := by
  have hm : c ∈ l := by
    cases l with
    | nil => exact absurd rfl hne
    | cons a rest => exact (h a (List.mem_cons_self ..)) ▸ List.mem_cons_self ..
  exact minQ_eq_of hm (fun x hx => le_of_eq (h x hx).symm)

theorem maxQ_const {l : List ℚ} {c : ℚ} (hne : l ≠ []) (h : ∀ x ∈ l, x = c) :
    maxQ l = c := by
  have hm : c ∈ l := by
    cases l with
    | nil => exact absurd rfl hne
    | cons a rest => exact (h a (List.mem_cons_self ..)) ▸ List.mem_cons_self ..
  exact maxQ_eq_of hm (fun x hx => le_of_eq (h x hx))

theorem colsOf_pos (cfg : LayoutConfig) : 0 < colsOf cfg :=
  lt_of_lt_of_le Nat.zero_lt_one (Nat.le_max_left 1 cfg.imagesPerRow)

theorem rowsOf_pos (cfg : LayoutConfig) {n : Nat} (h : 1 ≤ n) :
    1 ≤ rowsOf cfg n := by
  unfold rowsOf
  rw [Nat.le_div_iff_mul_le (colsOf_pos cfg), Nat.one_mul]
  omega

theorem div_lt_rowsOf (cfg : LayoutConfig) {i n : Nat} (h : i < n) :
    i / colsOf cfg < rowsOf cfg n := by
  unfold rowsOf
  have hc := colsOf_pos cfg
  have h1 : i / colsOf cfg ≤ (n - 1) / colsOf cfg :=
    Nat.div_le_div_right (by omega)
  have h2 : n + colsOf cfg - 1 = (n - 1) + colsOf cfg := by omega
  rw [h2, Nat.add_div_right _ hc]
  omega


/-! ## Properties of the number extractor -/

theorem lastDigitRunAux_no_digit :
    ∀ (rest cur last : List Char), (∀ c ∈ rest, c.isDigit = false) →
      lastDigitRunAux rest cur last = if cur.isEmpty then last else cur := by
  intro rest
  induction rest with
  | nil => intro cur last _; rfl
  | cons c rest ih =>
    intro cur last h
    have hc : c.isDigit = false := h c (List.mem_cons_self ..)
    have hrest : ∀ c ∈ rest, c.isDigit = false :=
      fun c hm => h c (List.mem_cons_of_mem _ hm)
    simp only [lastDigitRunAux, hc, Bool.false_eq_true, if_false]
    rw [ih [] _ hrest]
    rfl

theorem lastDigitRunAux_digits :
    ∀ (ds t cur last : List Char), (∀ c ∈ ds, c.isDigit = true) →
      lastDigitRunAux (ds ++ t) cur last = lastDigitRunAux t (cur ++ ds) last := by
  intro ds
  induction ds with
  | nil => intro t cur last _; simp
  | cons d ds ih =>
    intro t cur last h
    have hd : d.isDigit = true := h d (List.mem_cons_self ..)
    have hds : ∀ c ∈ ds, c.isDigit = true :=
      fun c hm => h c (List.mem_cons_of_mem _ hm)
    simp only [List.cons_append, lastDigitRunAux, hd, if_true, List.append_eq]
    rw [ih t _ last hds, List.append_assoc]
    rfl

theorem lastDigitRunAux_through {x : Char} (hx : x.isDigit = false) :
    ∀ (p t cur last : List Char), ∃ l',
      lastDigitRunAux ((p ++ [x]) ++ t) cur last = lastDigitRunAux t [] l' := by
  intro p
  induction p with
  | nil =>
    intro t cur last
    refine ⟨if cur.isEmpty then last else cur, ?_⟩
    simp only [List.nil_append, List.cons_append, lastDigitRunAux, hx,
      Bool.false_eq_true, if_false, List.append_eq]
  | cons c p ih =>
    intro t cur last
    by_cases hc : c.isDigit = true
    · obtain ⟨l', hl'⟩ := ih t (cur ++ [c]) last
      exact ⟨l', by simpa [lastDigitRunAux, hc] using hl'⟩
    · obtain ⟨l', hl'⟩ := ih t [] (if cur.isEmpty then last else cur)
      refine ⟨l', ?_⟩
      simp only [Bool.not_eq_true] at hc
      simpa [lastDigitRunAux, hc] using hl'

theorem lastDigitRunAux_ne_nil :
    ∀ (s cur last : List Char),
      ((∃ c ∈ s, c.isDigit = true) ∨ cur ≠ [] ∨ last ≠ []) →
      lastDigitRunAux s cur last ≠ [] := by
  intro s
  induction s with
  | nil =>
    intro cur last h
    rcases h with ⟨c, hc, _⟩ | h | h
    · simp at hc
    · cases cur with
      | nil => exact absurd rfl h
      | cons a t => simpa [lastDigitRunAux] using h
    · cases cur with
      | nil => simpa [lastDigitRunAux] using h
      | cons a t => simp [lastDigitRunAux]
  | cons c s ih =>
    intro cur last h
    by_cases hc : c.isDigit = true
    · simp only [lastDigitRunAux, hc, if_true]
      exact ih _ _ (Or.inr (Or.inl (by simp)))
    · simp only [Bool.not_eq_true] at hc
      simp only [lastDigitRunAux, hc, Bool.false_eq_true, if_false]
      refine ih _ _ ?_
      rcases h with ⟨d, hd, hdig⟩ | h | h
      · rcases List.mem_cons.mp hd with rfl | hd'
        · rw [hdig] at hc; exact absurd hc (by simp)
        · exact Or.inl ⟨d, hd', hdig⟩
      · cases cur with
        | nil => exact absurd rfl h
        | cons a t => exact Or.inr (Or.inr (by simp))
      · cases cur with
        | nil => exact Or.inr (Or.inr (by simpa using h))
        | cons a t => exact Or.inr (Or.inr (by simp))

/-- C9: for every label string, `extractTrailingNumber` returns the base-10
integer value (leading zeros discarded) of the last maximal run of decimal
digits occurring anywhere in the string — i.e. of the digit run `run` in any
decomposition `p ++ run ++ suf` where `run` is non-empty and all digits, `p`
does not end in a digit, and `suf` contains no digit — and returns `none`
exactly when the string contains no decimal digit. -/
theorem C9_extract_last_run (s : List Char) :
    (extractTrailingNumber s = none ↔ ∀ c ∈ s, c.isDigit = false)
    ∧ ∀ p run suf, s = p ++ run ++ suf → run ≠ [] →
        (∀ c ∈ run, c.isDigit = true) → (∀ c ∈ suf, c.isDigit = false) →
        (p = [] ∨ ∃ q x, p = q ++ [x] ∧ x.isDigit = false) →
        extractTrailingNumber s = some (digitsToNat run) := by
  constructor
  · constructor
    · intro h c hc
      by_contra hd
      have hd' : c.isDigit = true := by simpa using hd
      have hne := lastDigitRunAux_ne_nil s [] [] (Or.inl ⟨c, hc, hd'⟩)
      unfold extractTrailingNumber lastDigitRun at h
      simp only at h
      split at h
      · next hemp => exact hne (by simpa using hemp)
      · exact Option.some_ne_none _ h
    · intro h
      have hrun : lastDigitRunAux s [] [] = [] := by
        rw [lastDigitRunAux_no_digit s [] [] h]; rfl
      unfold extractTrailingNumber lastDigitRun
      simp [hrun]
  · intro p run suf hs hne hrun hsuf hp
    have hding : lastDigitRunAux s [] [] = run := by
      subst hs
      rcases hp with rfl | ⟨q, x, rfl, hx⟩
      · rw [List.nil_append, lastDigitRunAux_digits run suf [] [] hrun,
          List.nil_append, lastDigitRunAux_no_digit suf run [] hsuf]
        simp [List.isEmpty_iff, hne]
      · obtain ⟨l', hl'⟩ := lastDigitRunAux_through hx q (run ++ suf) [] []
        rw [List.append_assoc (q ++ [x]) run suf, hl',
          lastDigitRunAux_digits run suf [] l' hrun, List.nil_append,
          lastDigitRunAux_no_digit suf run l' hsuf]
        simp [List.isEmpty_iff, hne]
    unfold extractTrailingNumber lastDigitRun
    simp [hding, List.isEmpty_iff, hne]

/-- C9 witness: `"Name 10a2"` decomposes around its last digit run `"2"`,
and the extractor returns 2 on it. -/
theorem C9_extract_last_run_witness :
    extractTrailingNumber "Name 10a2".data = some 2 :=
  (C9_extract_last_run "Name 10a2".data).2 "Name 10a".data "2".data []
    (by decide) (by decide) (by decide) (by decide)
    (Or.inr ⟨"Name 10".data, 'a', by decide, by decide⟩)

theorem mapWithIndexFrom_const (g : α → β) (k : Nat) (l : List α) :
    mapWithIndexFrom (fun _ a => g a) k l = l.map g := by
  induction l generalizing k with
  | nil => rfl
  | cons a rest ih => simp [mapWithIndexFrom, ih]

/-! ## The geometry comparator (claim C8) -/

/-- First item of the geometry-comparator cycle (x 2, y 0, height 2). -/
def geoItemA : Item :=
  { id := 0, title := [], x := 2, y := 0, width := 1, height := 2,
    metadataBrightness := none, url := none }

/-- Second item of the cycle (x 1, y 1, height 2). -/
def geoItemB : Item :=
  { id := 1, title := [], x := 1, y := 1, width := 1, height := 2,
    metadataBrightness := none, url := none }

/-- Third item of the cycle (x 0, y 2, height 2). -/
def geoItemC : Item :=
  { id := 2, title := [], x := 0, y := 2, width := 1, height := 2,
    metadataBrightness := none, url := none }

/-- C8 counterexample: the geometry comparison is not transitive, so sorting
with it does not realize a total order.  `A` precedes `C` and `C` precedes
`B`, yet `A` does not precede `B` — indeed `B` precedes `A`, a cycle. -/
theorem C8_counterexample :
    compareByGeometry geoItemA geoItemC < 0 ∧
    compareByGeometry geoItemC geoItemB < 0 ∧
    ¬ compareByGeometry geoItemA geoItemB < 0 ∧
    compareByGeometry geoItemB geoItemA < 0 := by
  norm_num [compareByGeometry, geoItemA, geoItemB, geoItemC]

/-- C8 (amended): `a` precedes `b` (comparator value negative) precisely when
the vertical difference exceeds half the smaller height and `a.y < b.y`, or
the vertical difference is within that band and `a.x < b.x`; the comparison
is antisymmetric (swapping arguments negates the value), but — as the
counterexample shows — it is not transitive, hence not a total order. -/
theorem C8_geometry_compare (a b : Item) :
    (compareByGeometry a b < 0 ↔
      ((min a.height b.height / 2 < |a.y - b.y| ∧ a.y < b.y) ∨
       (|a.y - b.y| ≤ min a.height b.height / 2 ∧ a.x < b.x)))
    ∧ compareByGeometry b a = -compareByGeometry a b := by
  constructor
  · by_cases h : min a.height b.height / 2 < |a.y - b.y|
    · simp [compareByGeometry, h, sub_neg, not_le.mpr h]
    · simp [compareByGeometry, h, sub_neg, le_of_not_lt h]
  · have h1 : min b.height a.height = min a.height b.height := min_comm ..
    have h2 : |b.y - a.y| = |a.y - b.y| := abs_sub_comm ..
    unfold compareByGeometry
    rw [h1, h2]
    split <;> ring

/-! ## Frame property of the layout (claim C10) -/

/-- C10: with `sizeMode` 'none', both layout variants change only each item's
`x` and `y`: erasing positions on both sides yields the input list itself,
so length, order, widths, heights, titles, ids, metadata and urls are all
exactly preserved. -/
theorem C10_layout_frame (images : List Item) (cfg : LayoutConfig)
    (h : cfg.sizeMode = SizeMode.none) :
    (alignUniform images cfg).map stripPos = images.map stripPos
    ∧ (alignPacked images cfg).map stripPos = images.map stripPos := by
  have hres : applyResize cfg images = images := by simp [applyResize, h]
  constructor
  · unfold alignUniform
    split
    · rfl
    · rw [hres, mapWithIndexFrom_map stripPos (placeUniform images cfg) 0 images]
      have hfn : (fun i a => stripPos (placeUniform images cfg i a))
          = fun (_ : Nat) a => stripPos a := by
        funext i a; rfl
      rw [hfn, mapWithIndexFrom_const stripPos 0 images]
  · unfold alignPacked
    split
    · rfl
    · rw [hres, mapWithIndexFrom_map stripPos (placePacked images cfg) 0 images]
      have hfn : (fun i a => stripPos (placePacked images cfg i a))
          = fun (_ : Nat) a => stripPos a := by
        funext i a; rfl
      rw [hfn, mapWithIndexFrom_const stripPos 0 images]

/-- A concrete two-item list for the C10 witness. -/
def frameList : List Item :=
  [{ id := 5, title := "a".data, x := 0, y := 0, width := 2, height := 1,
     metadataBrightness := some (1 / 4), url := some 9 },
   { id := 6, title := "b7".data, x := 10, y := 3, width := 1, height := 4,
     metadataBrightness := none, url := none }]

/-- A concrete sizeMode-'none' config for the C10 witness. -/
def frameCfg : LayoutConfig :=
  { imagesPerRow := 2, horizontalGap := 1, verticalGap := 2,
    sizeMode := SizeMode.none, startCorner := Corner.bottomRight }

/-- C10 witness: the frame property instantiated at a concrete list and
config. -/
theorem C10_layout_frame_witness :
    frameCfg.sizeMode = SizeMode.none
    ∧ ((alignUniform frameList frameCfg).map stripPos = frameList.map stripPos
       ∧ (alignPacked frameList frameCfg).map stripPos = frameList.map stripPos) :=
  ⟨rfl, C10_layout_frame frameList frameCfg rfl⟩

/-! ## Permutation facts about the sorting strategies (claims C1, C5) -/

theorem metaOf_map_img (images : List Item) :
    (metaOf images).map NumMeta.img = images :=
  mapWithIndexFrom_cancel _ _ 0 images (fun _ _ => rfl)

theorem numberOrderSort_perm (images : List Item) :
    (numberOrderSort images).Perm images := by
  unfold numberOrderSort
  have h := (List.perm_insertionSort numLe (metaOf images)).map NumMeta.img
  rwa [metaOf_map_img] at h

theorem sortByGeometry_perm (images : List Item) :
    (sortByGeometry images).Perm images := by
  unfold sortByGeometry
  have h := (List.perm_insertionSort geoLe
    (mapWithIndexFrom Prod.mk 0 images)).map Prod.snd
  rwa [mapWithIndexFrom_cancel Prod.mk Prod.snd 0 images (fun _ _ => rfl)] at h

theorem renumberByGeometry_stripTitle (images : List Item) :
    (renumberByGeometry images).map stripTitle
      = (sortByGeometry images).map stripTitle := by
  unfold renumberByGeometry
  rw [mapWithIndexFrom_map]
  have hfn : (fun i img => stripTitle { img with title := natTitle (i + 1) })
      = fun (_ : Nat) img => stripTitle img := by
    funext i a; rfl
  rw [hfn, mapWithIndexFrom_const]

/-- The single item of the C1 counterexample: an empty label, which yields no
number. -/
def c1Item : Item :=
  { id := 0, title := [], x := 0, y := 0, width := 1, height := 1,
    metadataBrightness := none, url := none }

/-- Input list of the C1 counterexample. -/
def c1List : List Item := [c1Item]

/-- C1 counterexample: the number strategy has an item whose label yields no
number, yet the operation does not fail and does not leave titles
byte-for-byte unchanged: the empty title is overwritten with "1".  There is
no strict mode in the code, and a mutation does happen. -/
theorem C1_counterexample :
    (∃ img ∈ c1List, extractTrailingNumber img.title = none)
    ∧ (sortImagesByNumber c1List).map Item.title ≠ c1List.map Item.title := by
  decide

/-- C1 (amended): the code implements no strict mode: `sortImagesByNumber`
never produces a validation error.  It always returns a permutation of its
input up to titles (positions, sizes, ids and metadata of every item are
preserved), and when no title is empty it is a genuine permutation of the
input, titles included; when some title is empty, all titles are rewritten
by the geometry pre-pass before sorting. -/
theorem C1_no_strict_mode (images : List Item) :
    ((sortImagesByNumber images).map stripTitle).Perm (images.map stripTitle)
    ∧ ((images.all fun img => !img.title.isEmpty) = true →
        (sortImagesByNumber images).Perm images) := by
  constructor
  · unfold sortImagesByNumber
    by_cases hc : (images.any fun img => img.title.isEmpty) = true
    · rw [if_pos hc]
      have h1 := (numberOrderSort_perm (renumberByGeometry images)).map stripTitle
      rw [renumberByGeometry_stripTitle] at h1
      exact h1.trans ((sortByGeometry_perm images).map stripTitle)
    · rw [if_neg (by simpa using hc)]
      exact (numberOrderSort_perm images).map stripTitle
  · intro hall
    have hc : (images.any fun img => img.title.isEmpty) = false := by
      rw [List.any_eq_false]
      intro img hm
      have := List.all_eq_true.mp hall img hm
      simpa using this
    unfold sortImagesByNumber
    rw [if_neg (by simp [hc])]
    exact numberOrderSort_perm images

/-- Concrete list for the C1 witness: both titles non-empty, one without any
digit. -/
def c1wList : List Item :=
  [{ id := 0, title := "x".data, x := 0, y := 0, width := 1, height := 1,
     metadataBrightness := none, url := none },
   { id := 1, title := "y_5".data, x := 3, y := 0, width := 1, height := 1,
     metadataBrightness := none, url := none }]

/-- C1 witness: the amended claim instantiated at a concrete two-item list
with non-empty titles. -/
theorem C1_no_strict_mode_witness :
    (c1wList.all fun img => !img.title.isEmpty) = true
    ∧ ((sortImagesByNumber c1wList).map stripTitle).Perm (c1wList.map stripTitle)
    ∧ (sortImagesByNumber c1wList).Perm c1wList :=
  ⟨by decide, (C1_no_strict_mode c1wList).1, (C1_no_strict_mode c1wList).2 (by decide)⟩

/-- The single item of the C5 counterexample: empty label, with a metadata
brightness so the color strategy keeps it. -/
def c5Item : Item :=
  { id := 0, title := [], x := 0, y := 0, width := 1, height := 1,
    metadataBrightness := some 1, url := none }

/-- Input list of the C5 counterexample. -/
def c5List : List Item := [c5Item]

/-- Sampler of the C5 counterexample (never consulted). -/
def c5Sample : Nat → Option ℚ := fun _ => none

/-- C5 counterexample: an item with an empty label, ordered with the color
strategy, keeps its empty label — no sequential numeric label is assigned or
written back.  The number strategy does relabel the same input, so the
pre-pass exists but is not shared by the color strategy as claimed. -/
theorem C5_counterexample :
    (c5List.any fun img => img.title.isEmpty) = true
    ∧ (orderImages c5Sample SortMode.color c5List).map Item.title
        = c5List.map Item.title
    ∧ (orderImages c5Sample SortMode.number c5List).map Item.title
        ≠ c5List.map Item.title := by decide

/-- C5 (amended): the empty-label pre-pass applies only to the number
strategy: when some label is empty, `sortImagesByNumber` first orders the
items by geometry and assigns the sequential labels "1", "2", ... in that
order (preserving everything but the titles), and only then applies the
number ordering; the color strategy never performs this pre-pass. -/
theorem C5_prepass_number_only (sample : Nat → Option ℚ) (images : List Item)
    (h : (images.any fun img => img.title.isEmpty) = true) :
    orderImages sample SortMode.number images
        = numberOrderSort (renumberByGeometry images)
    ∧ (renumberByGeometry images).map Item.title
        = (List.range images.length).map (fun n => natTitle (n + 1))
    ∧ ((renumberByGeometry images).map stripTitle).Perm (images.map stripTitle) := by
  refine ⟨?_, ?_, ?_⟩
  · show sortImagesByNumber images = _
    unfold sortImagesByNumber
    rw [if_pos h]
  · unfold renumberByGeometry
    rw [mapWithIndexFrom_map,
      mapWithIndexFrom_indep (fun i => natTitle (i + 1)) 0 (sortByGeometry images)
        _ (fun i a => rfl),
      (sortByGeometry_perm images).length_eq]
    simp
  · rw [renumberByGeometry_stripTitle]
    exact (sortByGeometry_perm images).map stripTitle

/-- Concrete list for the C5 witness: one empty title. -/
def c5wList : List Item :=
  [{ id := 3, title := [], x := 2, y := 5, width := 1, height := 1,
     metadataBrightness := none, url := none }]

/-- C5 witness: the amended claim instantiated at a concrete one-item list
with an empty title. -/
theorem C5_prepass_number_only_witness :
    (c5wList.any fun img => img.title.isEmpty) = true
    ∧ (orderImages c5Sample SortMode.number c5wList
        = numberOrderSort (renumberByGeometry c5wList)
      ∧ (renumberByGeometry c5wList).map Item.title
          = (List.range c5wList.length).map (fun n => natTitle (n + 1))
      ∧ ((renumberByGeometry c5wList).map stripTitle).Perm
          (c5wList.map stripTitle)) :=
  ⟨by decide, C5_prepass_number_only c5Sample c5wList (by decide)⟩

/-! ## The non-strict number ordering is a total order (claim C2) -/

theorem metaOf_mem {m : NumMeta} {images : List Item} (h : m ∈ metaOf images) :
    m.num = extractTrailingNumber m.img.title
    ∧ m.lower = lowerStr m.img.title := by
  obtain ⟨i, a, _, rfl⟩ := mem_mapWithIndexFrom h
  exact ⟨rfl, rfl⟩

theorem numLe_numbered_first {a b : NumMeta} (h : numLe a b)
    (hb : b.num.isSome = true) : a.num.isSome = true := by
  rw [numLe] at h
  rcases ha : a.num with _ | x
  · rcases hbn : b.num with _ | y
    · rw [hbn] at hb; simp at hb
    · rw [ha, hbn] at h
      simp [numLeAux] at h
  · simp [ha]

theorem numLe_num_mono {a b : NumMeta} (h : numLe a b) :
    ∀ x y, a.num = some x → b.num = some y → x ≤ y := by
  intro x y hx hy
  rw [numLe, hx, hy] at h
  rcases h with h | ⟨h, _⟩
  · exact le_of_lt h
  · exact le_of_eq h

/-- The example items of the C2 claim: titles "b_2", "a_1", "c". -/
def c2ExList : List Item :=
  [{ id := 0, title := "b_2".data, x := 0, y := 0, width := 1, height := 1,
     metadataBrightness := none, url := none },
   { id := 1, title := "a_1".data, x := 4, y := 0, width := 1, height := 1,
     metadataBrightness := none, url := none },
   { id := 2, title := "c".data, x := 8, y := 0, width := 1, height := 1,
     metadataBrightness := none, url := none }]

/-- C2: the non-strict number ordering returns a permutation of the input;
the underlying record comparison `numLe` (number ascending with missing
numbers last, ties by lowercase label, then original index) is total,
transitive and antisymmetric — a total order on the index-tagged records —
and the sorted list is sorted by it; consequently every item whose label
yields a number precedes every item without one, and numbered items appear
in ascending number order.  On the claim's example, titles "b_2", "a_1", "c"
order as "a_1", "b_2", "c". -/
theorem C2_number_order_total (images : List Item) :
    (numberOrderSort images).Perm images
    ∧ List.Sorted numLe (List.insertionSort numLe (metaOf images))
    ∧ (∀ a b : NumMeta, numLe a b ∨ numLe b a)
    ∧ (∀ a b c : NumMeta, numLe a b → numLe b c → numLe a c)
    ∧ (∀ a b : NumMeta, numLe a b → numLe b a →
        a.num = b.num ∧ a.lower = b.lower ∧ a.index = b.index)
    ∧ List.Pairwise (fun u v : Item =>
        (extractTrailingNumber v.title).isSome = true →
        (extractTrailingNumber u.title).isSome = true) (numberOrderSort images)
    ∧ List.Pairwise (fun u v : Item => ∀ nu nv,
        extractTrailingNumber u.title = some nu →
        extractTrailingNumber v.title = some nv → nu ≤ nv) (numberOrderSort images)
    ∧ (numberOrderSort c2ExList).map Item.title
        = ["a_1".data, "b_2".data, "c".data] := by
  have hsorted := List.sorted_insertionSort numLe (metaOf images)
  have hmem : ∀ m ∈ List.insertionSort numLe (metaOf images),
      m.num = extractTrailingNumber m.img.title :=
    fun m hm =>
      (metaOf_mem ((List.perm_insertionSort numLe (metaOf images)).mem_iff.mp hm)).1
  refine ⟨numberOrderSort_perm images, hsorted,
    fun a b => ?_, fun a b c => trans_of numLe,
    fun a b hab hba => numLe_antisymm hab hba, ?_, ?_, by decide⟩
  · exact total_of numLe a b
  · unfold numberOrderSort
    rw [List.pairwise_map]
    refine hsorted.imp_of_mem ?_
    intro a b ha hb hab hnum
    rw [← hmem a ha]
    rw [← hmem b hb] at hnum
    exact numLe_numbered_first hab hnum
  · unfold numberOrderSort
    rw [List.pairwise_map]
    refine hsorted.imp_of_mem ?_
    intro a b ha hb hab nu nv hnu hnv
    rw [← hmem a ha] at hnu
    rw [← hmem b hb] at hnv
    exact numLe_num_mono hab nu nv hnu hnv

/-- C2 witness: the permutation property and the claim's example, obtained by
applying the theorem at the example list. -/
theorem C2_number_order_total_witness :
    (numberOrderSort c2ExList).Perm c2ExList
    ∧ (numberOrderSort c2ExList).map Item.title
        = ["a_1".data, "b_2".data, "c".data] :=
  ⟨(C2_number_order_total c2ExList).1,
   (C2_number_order_total c2ExList).2.2.2.2.2.2.2⟩

/-- C8 witness: the comparator characterisation applied at two concrete
items. -/
theorem C8_geometry_compare_witness :
    (compareByGeometry geoItemA geoItemC < 0 ↔
      ((min geoItemA.height geoItemC.height / 2 < |geoItemA.y - geoItemC.y|
          ∧ geoItemA.y < geoItemC.y) ∨
       (|geoItemA.y - geoItemC.y| ≤ min geoItemA.height geoItemC.height / 2
          ∧ geoItemA.x < geoItemC.x)))
    ∧ compareByGeometry geoItemC geoItemA = -compareByGeometry geoItemA geoItemC :=
  C8_geometry_compare geoItemA geoItemC

/-! ## Color ordering (claim C4) -/

theorem colorMeta_eq (sample : Nat → Option ℚ) (images : List Item) :
    colorMeta sample images
      = (keptItems images).map (fun img => (img, lum sample img)) := by
  induction images with
  | nil => rfl
  | cons a rest ih =>
    rcases ha : a.metadataBrightness with _ | y
    · rcases hu : a.url with _ | u
      · simpa [colorMeta, keptItems, List.filterMap_cons, List.filter_cons,
          ha, hu] using ih
      · rcases hs : sample u with _ | yv
        · simpa [colorMeta, keptItems, List.filterMap_cons, List.filter_cons,
            lum, ha, hu, hs] using ih
        · simpa [colorMeta, keptItems, List.filterMap_cons, List.filter_cons,
            lum, ha, hu, hs] using ih
    · simpa [colorMeta, keptItems, List.filterMap_cons, List.filter_cons,
        lum, ha] using ih

theorem colorLe_le {p q : Nat × (Item × ℚ)} (h : colorLe p q) :
    q.2.2 ≤ p.2.2 := by
  rcases h with h | ⟨h, _⟩
  · exact le_of_lt h
  · exact le_of_eq h.symm

/-- Item kept by the color strategy in the C4 counterexample (metadata
brightness present). -/
def c4ItemA : Item :=
  { id := 0, title := "A".data, x := 0, y := 0, width := 1, height := 1,
    metadataBrightness := some 1, url := none }

/-- Item dropped by the color strategy in the C4 counterexample: neither a
metadata brightness nor any URL. -/
def c4ItemB : Item :=
  { id := 1, title := "B".data, x := 4, y := 0, width := 1, height := 1,
    metadataBrightness := none, url := none }

/-- Input list of the C4 counterexample. -/
def c4List : List Item := [c4ItemA, c4ItemB]

/-- Sampler of the C4 counterexample (never consulted: no item has a URL). -/
def c4Sample : Nat → Option ℚ := fun _ => none

/-- C4 counterexample: an item with neither metadata brightness nor a URL is
silently dropped (`continue`), so the returned list does not contain every
input item exactly once. -/
theorem C4_counterexample :
    c4ItemB ∈ c4List
    ∧ (sortImagesByColor c4Sample c4List).length ≠ c4List.length
    ∧ c4ItemB ∉ sortImagesByColor c4Sample c4List := by decide

/-- C4 (amended): the color strategy takes each item's luminance from its
metadata if present, otherwise samples its URL, assigning the neutral 0.5 on
sampling failure — but an item with neither metadata brightness nor any URL
is omitted from the result.  The result is a permutation of exactly the
kept items (those with metadata or a URL), sorted descending by luminance;
when no item yields an entry the whole operation falls back to geometry
ordering of the full input. -/
theorem C4_color_sort (sample : Nat → Option ℚ) (images : List Item) :
    (keptItems images = [] → sortImagesByColor sample images = sortByGeometry images)
    ∧ (keptItems images ≠ [] →
        (sortImagesByColor sample images).Perm (keptItems images)
        ∧ List.Pairwise (fun u v : Item => lum sample v ≤ lum sample u)
            (sortImagesByColor sample images)) := by
  constructor
  · intro hk
    unfold sortImagesByColor
    rw [colorMeta_eq, hk]
    rfl
  · intro hk
    have hne : (colorMeta sample images).isEmpty = false := by
      rw [colorMeta_eq]
      cases hkk : keptItems images with
      | nil => exact absurd hkk hk
      | cons a rest => simp [hkk]
    constructor
    · unfold sortImagesByColor
      simp only [hne, Bool.false_eq_true, if_false]
      have hperm := (List.perm_insertionSort colorLe
        (mapWithIndexFrom Prod.mk 0 (colorMeta sample images))).map
        (fun p => p.2.1)
      rw [mapWithIndexFrom_map] at hperm
      rw [mapWithIndexFrom_const (fun (a : Item × ℚ) => a.1) 0] at hperm
      have hr : (colorMeta sample images).map (fun a : Item × ℚ => a.1)
          = keptItems images := by
        have hcomp : ((fun a : Item × ℚ => a.1) ∘ fun img : Item =>
            (img, lum sample img)) = fun img : Item => img := by
          funext img; rfl
        rw [colorMeta_eq, List.map_map, hcomp, List.map_id']
      rwa [hr] at hperm
    · unfold sortImagesByColor
      simp only [hne, Bool.false_eq_true, if_false]
      rw [List.pairwise_map]
      have hsorted := List.sorted_insertionSort colorLe
        (mapWithIndexFrom Prod.mk 0 (colorMeta sample images))
      refine hsorted.imp_of_mem ?_
      intro p q hp hq hpq
      have hmem : ∀ r ∈ List.insertionSort colorLe
          (mapWithIndexFrom Prod.mk 0 (colorMeta sample images)),
          r.2.2 = lum sample r.2.1 := by
        intro r hr
        have hr2 := (List.perm_insertionSort colorLe _).mem_iff.mp hr
        obtain ⟨i, m, hm, rfl⟩ := mem_mapWithIndexFrom hr2
        rw [colorMeta_eq] at hm
        obtain ⟨img, _, rfl⟩ := List.mem_map.mp hm
        rfl
      have h1 := colorLe_le hpq
      rw [hmem p hp, hmem q hq] at h1
      exact h1

/-- Concrete list for the C4 witness: two kept items with metadata
brightness 0 and 1. -/
def c4wList : List Item :=
  [{ id := 0, title := "d".data, x := 0, y := 0, width := 1, height := 1,
     metadataBrightness := some 0, url := none },
   { id := 1, title := "e".data, x := 4, y := 0, width := 1, height := 1,
     metadataBrightness := some 1, url := none }]

/-- C4 witness: the amended claim instantiated at a concrete two-item list
whose kept-item set is non-empty. -/
theorem C4_color_sort_witness :
    keptItems c4wList ≠ []
    ∧ ((sortImagesByColor c4Sample c4wList).Perm (keptItems c4wList)
       ∧ List.Pairwise (fun u v : Item => lum c4Sample v ≤ lum c4Sample u)
           (sortImagesByColor c4Sample c4wList)) :=
  ⟨by decide, (C4_color_sort c4Sample c4wList).2 (by decide)⟩

/-! ## Unit-square grid layout (claim C7) -/

theorem applyResize_commonSize {images : List Item} {W H : ℚ}
    (hW : ∀ img ∈ images, img.width = W) (hH : ∀ img ∈ images, img.height = H)
    (cfg : LayoutConfig) : applyResize cfg images = images := by
  cases images with
  | nil => cases hm : cfg.sizeMode <;> simp [applyResize, hm]
  | cons a rest =>
    cases hm : cfg.sizeMode
    · simp [applyResize, hm]
    · unfold applyResize
      rw [hm]
      have hmin : minQ ((a :: rest).map Item.width) = W :=
        minQ_const (by simp) (by
          intro x hx
          obtain ⟨img, hmem, rfl⟩ := List.mem_map.mp hx
          exact hW img hmem)
      refine (List.map_congr_left ?_).trans (List.map_id _)
      intro img hmem
      rw [hmin, ← hW img hmem]
      rfl
    · unfold applyResize
      rw [hm]
      have hmin : minQ ((a :: rest).map Item.height) = H :=
        minQ_const (by simp) (by
          intro x hx
          obtain ⟨img, hmem, rfl⟩ := List.mem_map.mp hx
          exact hH img hmem)
      refine (List.map_congr_left ?_).trans (List.map_id _)
      intro img hmem
      rw [hmin, ← hH img hmem]
      rfl

theorem alignUniform_eq {images : List Item} {cfg : LayoutConfig}
    (hne : images ≠ []) (hres : applyResize cfg images = images) :
    alignUniform images cfg
      = mapWithIndexFrom (placeUniform images cfg) 0 images := by
  unfold alignUniform
  rw [if_neg (by simpa [List.isEmpty_iff] using hne), hres]

theorem alignPacked_eq {images : List Item} {cfg : LayoutConfig}
    (hne : images ≠ []) (hres : applyResize cfg images = images) :
    alignPacked images cfg
      = mapWithIndexFrom (placePacked images cfg) 0 images := by
  unfold alignPacked
  rw [if_neg (by simpa [List.isEmpty_iff] using hne), hres]

theorem one_le_abs_natCast_sub {a b : Nat} (h : a ≠ b) :
    1 ≤ |(a : ℚ) - (b : ℚ)| := by
  rcases h.lt_or_lt with hl | hl
  · have h1 : (a : ℚ) + 1 ≤ (b : ℚ) := by exact_mod_cast Nat.succ_le_of_lt hl
    rw [abs_sub_comm, abs_of_nonneg (by linarith)]
    linarith
  · have h1 : (b : ℚ) + 1 ≤ (a : ℚ) := by exact_mod_cast Nat.succ_le_of_lt hl
    rw [abs_of_nonneg (by linarith)]
    linarith

/-- C7: N unit-square items, columns C ≥ 1, zero gaps, anchor top-left,
sizeMode 'none': the resulting centres form exactly the C-wide,
ceil(N/C)-tall unit grid anchored at the original bounding box's top-left
corner, with item i in cell (row i / C, column i % C), and no two items
overlap (the last row may be partially filled: cells simply run out at N). -/
theorem C7_unit_grid (images : List Item) (C : Nat) (cfg : LayoutConfig)
    (hne : images ≠ [])
    (hsz : ∀ img ∈ images, img.width = 1 ∧ img.height = 1)
    (hC : 1 ≤ C)
    (hcfg : cfg = { imagesPerRow := C, horizontalGap := 0, verticalGap := 0,
                    sizeMode := SizeMode.none, startCorner := Corner.topLeft }) :
    (alignUniform images cfg).length = images.length
    ∧ (∀ i, (h1 : i < (alignUniform images cfg).length) →
        (alignUniform images cfg)[i].x = bboxLeft images + ((i % C : Nat) : ℚ) + 1 / 2
        ∧ (alignUniform images cfg)[i].y = bboxTop images + ((i / C : Nat) : ℚ) + 1 / 2
        ∧ i % C < C ∧ i / C < (images.length + C - 1) / C)
    ∧ (∀ i j, (h1 : i < (alignUniform images cfg).length) →
        (h2 : j < (alignUniform images cfg).length) → i ≠ j →
        ¬ overlaps (alignUniform images cfg)[i] (alignUniform images cfg)[j]) := by
  subst hcfg
  set cfg : LayoutConfig :=
    { imagesPerRow := C, horizontalGap := 0, verticalGap := 0,
      sizeMode := SizeMode.none, startCorner := Corner.topLeft } with hcfgdef
  have hres : applyResize cfg images = images := rfl
  have halign := alignUniform_eq hne hres
  have hlen : (alignUniform images cfg).length = images.length := by
    rw [halign, mapWithIndexFrom_length]
  have hcols : colsOf cfg = C := Nat.max_eq_right hC
  have hCpos : 0 < C := hC
  have hmaxW : maxQ (images.map Item.width) = 1 :=
    maxQ_const (by simpa using hne) (by
      intro x hx
      obtain ⟨img, hmem, rfl⟩ := List.mem_map.mp hx
      exact (hsz img hmem).1)
  have hmaxH : maxQ (images.map Item.height) = 1 :=
    maxQ_const (by simpa using hne) (by
      intro x hx
      obtain ⟨img, hmem, rfl⟩ := List.mem_map.mp hx
      exact (hsz img hmem).2)
  have hget : ∀ i, (h2 : i < images.length) →
      (h1 : i < (alignUniform images cfg).length) →
      (alignUniform images cfg)[i] = placeUniform images cfg i images[i] := by
    intro i h2 h1
    have hstep := mapWithIndexFrom_getElem (placeUniform images cfg) 0 images i
      (by rwa [halign] at h1) h2
    rw [Nat.zero_add] at hstep
    exact (List.getElem_of_eq halign h1).trans hstep
  have hspec : ∀ i, (h2 : i < images.length) →
      (placeUniform images cfg i images[i]).x
          = bboxLeft images + ((i % C : Nat) : ℚ) + 1 / 2
      ∧ (placeUniform images cfg i images[i]).y
          = bboxTop images + ((i / C : Nat) : ℚ) + 1 / 2
      ∧ (placeUniform images cfg i images[i]).width = 1
      ∧ (placeUniform images cfg i images[i]).height = 1 := by
    intro i h2
    have hw : images[i].width = 1 := (hsz _ (images.getElem_mem h2)).1
    have hh : images[i].height = 1 := (hsz _ (images.getElem_mem h2)).2
    have hfl : cfg.startCorner.fromLeft = true := rfl
    have hft : cfg.startCorner.fromTop = true := rfl
    have hcolFL : colFL cfg i = i % C := by simp [colFL, hfl, hcols]
    have hrowFT : rowFT cfg images.length i = i / C := by simp [rowFT, hft, hcols]
    have horl : originLeftU images cfg = bboxLeft images := by
      simp [originLeftU, hfl]
    have hort : originTopU images cfg = bboxTop images := by
      simp [originTopU, hft]
    have hcw : cellW images cfg = 1 := by norm_num [cellW, hmaxW, hcfgdef]
    have hch : cellH images cfg = 1 := by norm_num [cellH, hmaxH, hcfgdef]
    refine ⟨?_, ?_, hw, hh⟩
    · show originLeftU images cfg + (colFL cfg i : ℚ) * cellW images cfg
          + images[i].width / 2 = _
      rw [horl, hcolFL, hcw, hw]
      ring
    · show originTopU images cfg + (rowFT cfg images.length i : ℚ)
          * cellH images cfg + images[i].height / 2 = _
      rw [hort, hrowFT, hch, hh]
      ring
  refine ⟨hlen, ?_, ?_⟩
  · intro i h1
    have h2 : i < images.length := by rwa [hlen] at h1
    rw [hget i h2 h1]
    refine ⟨(hspec i h2).1, (hspec i h2).2.1, Nat.mod_lt _ hCpos, ?_⟩
    have := div_lt_rowsOf cfg h2
    rwa [hcols, rowsOf, hcols] at this
  · intro i j h1 h2 hij
    have h2i : i < images.length := by rwa [hlen] at h1
    have h2j : j < images.length := by rwa [hlen] at h2
    rw [hget i h2i h1, hget j h2j h2]
    obtain ⟨hxi, hyi, hwi, hhi⟩ := hspec i h2i
    obtain ⟨hxj, hyj, hwj, hhj⟩ := hspec j h2j
    intro hov
    obtain ⟨hdx, hdy⟩ := hov
    rw [hxi, hxj, hwi, hwj] at hdx
    rw [hyi, hyj, hhi, hhj] at hdy
    have hdx' : |((i % C : Nat) : ℚ) - ((j % C : Nat) : ℚ)| < 1 := by
      have : bboxLeft images + ((i % C : Nat) : ℚ) + 1 / 2
          - (bboxLeft images + ((j % C : Nat) : ℚ) + 1 / 2)
          = ((i % C : Nat) : ℚ) - ((j % C : Nat) : ℚ) := by ring
      rw [this] at hdx
      linarith [hdx]
    have hdy' : |((i / C : Nat) : ℚ) - ((j / C : Nat) : ℚ)| < 1 := by
      have : bboxTop images + ((i / C : Nat) : ℚ) + 1 / 2
          - (bboxTop images + ((j / C : Nat) : ℚ) + 1 / 2)
          = ((i / C : Nat) : ℚ) - ((j / C : Nat) : ℚ) := by ring
      rw [this] at hdy
      linarith [hdy]
    rcases eq_or_ne (i % C) (j % C) with hmod | hmod
    · have hdiv : i / C ≠ j / C := by
        intro hd
        apply hij
        have hi := Nat.div_add_mod i C
        have hj := Nat.div_add_mod j C
        rw [hd, hmod] at hi
        omega
      exact absurd hdy' (not_lt.mpr (one_le_abs_natCast_sub hdiv))
    · exact absurd hdx' (not_lt.mpr (one_le_abs_natCast_sub hmod))

/-- Five unit-square items for the C7 witness. -/
def c7List : List Item :=
  [{ id := 0, title := [], x := 0, y := 3, width := 1, height := 1,
     metadataBrightness := none, url := none },
   { id := 1, title := [], x := 7, y := 3, width := 1, height := 1,
     metadataBrightness := none, url := none },
   { id := 2, title := [], x := 14, y := 3, width := 1, height := 1,
     metadataBrightness := none, url := none },
   { id := 3, title := [], x := 21, y := 3, width := 1, height := 1,
     metadataBrightness := none, url := none },
   { id := 4, title := [], x := 28, y := 3, width := 1, height := 1,
     metadataBrightness := none, url := none }]

/-- Config for the C7 witness: 2 columns, zero gaps, top-left anchor. -/
def c7Cfg : LayoutConfig :=
  { imagesPerRow := 2, horizontalGap := 0, verticalGap := 0,
    sizeMode := SizeMode.none, startCorner := Corner.topLeft }

/-- C7 witness: the grid property instantiated at 5 unit squares with 2
columns (3 rows, last row partially filled). -/
theorem C7_unit_grid_witness :
    c7List ≠ []
    ∧ (∀ img ∈ c7List, img.width = 1 ∧ img.height = 1)
    ∧ ((alignUniform c7List c7Cfg).length = c7List.length
      ∧ (∀ i, (h1 : i < (alignUniform c7List c7Cfg).length) →
          (alignUniform c7List c7Cfg)[i].x
              = bboxLeft c7List + ((i % 2 : Nat) : ℚ) + 1 / 2
          ∧ (alignUniform c7List c7Cfg)[i].y
              = bboxTop c7List + ((i / 2 : Nat) : ℚ) + 1 / 2
          ∧ i % 2 < 2 ∧ i / 2 < (c7List.length + 2 - 1) / 2)
      ∧ (∀ i j, (h1 : i < (alignUniform c7List c7Cfg).length) →
          (h2 : j < (alignUniform c7List c7Cfg).length) → i ≠ j →
          ¬ overlaps (alignUniform c7List c7Cfg)[i] (alignUniform c7List c7Cfg)[j])) :=
  ⟨by decide, by decide,
   C7_unit_grid c7List 2 c7Cfg (by decide) (by decide) (by decide) rfl⟩

/-! ## Packed rows under a common item size (claims C6 and C3) -/

theorem mul_lt_of_lt_rowsOf {cfg : LayoutConfig} {n r : Nat}
    (hn : r < rowsOf cfg n) : r * colsOf cfg < n := by
  have hc := colsOf_pos cfg
  by_contra hcon
  push_neg at hcon
  have hle : rowsOf cfg n ≤ r := by
    unfold rowsOf
    rw [Nat.div_le_iff_le_mul_add_pred hc]
    have hcomm : colsOf cfg * r = r * colsOf cfg := Nat.mul_comm _ _
    omega
  omega

theorem mem_of_mem_rowSliceP {images : List Item} {cols r : Nat} {x : Item}
    (h : x ∈ rowSliceP images cols r) : x ∈ images :=
  List.drop_subset _ _ (List.take_subset _ _ h)

theorem rowSliceP_ne_nil {images : List Item} {cols r : Nat}
    (hc : 0 < cols) (h : r * cols < images.length) :
    rowSliceP images cols r ≠ [] := by
  rw [← List.length_pos]
  unfold rowSliceP
  rw [List.length_take, List.length_drop]
  omega

theorem foldl_max_height_acc {H : ℚ} :
    ∀ (l : List Item) (acc : ℚ), l ≠ [] → (∀ x ∈ l, x.height = H) →
      l.foldl (fun acc img => max acc img.height) acc = max acc H := by
  intro l
  induction l with
  | nil => intro acc h _; exact absurd rfl h
  | cons b t ih =>
    intro acc _ hall
    have hb : b.height = H := hall b (List.mem_cons_self ..)
    cases t with
    | nil => simp [hb]
    | cons c t' =>
      rw [List.foldl_cons, hb,
        ih (max acc H) (by simp) (fun x hx => hall x (List.mem_cons_of_mem _ hx)),
        max_assoc, max_self]

theorem rowHeightP_eq {images : List Item} {cfg : LayoutConfig} {H : ℚ}
    (hH : ∀ x ∈ images, x.height = H) (hH0 : 0 ≤ H) {r : Nat}
    (hr : r < rowsOf cfg images.length) :
    rowHeightP images (colsOf cfg) r = H := by
  unfold rowHeightP
  rw [foldl_max_height_acc _ 0
    (rowSliceP_ne_nil (colsOf_pos cfg) (mul_lt_of_lt_rowsOf hr))
    (fun x hx => hH x (mem_of_mem_rowSliceP hx))]
  exact max_eq_right hH0

theorem rowTopP_eq {images : List Item} {cfg : LayoutConfig} {H : ℚ}
    (hH : ∀ x ∈ images, x.height = H) (hH0 : 0 ≤ H) (vg : ℚ) :
    ∀ r, r < rowsOf cfg images.length →
      rowTopP images (colsOf cfg) vg r = (r : ℚ) * (H + vg) := by
  intro r
  induction r with
  | zero => intro _; simp [rowTopP]
  | succ r ih =>
    intro hr
    have hr' : r < rowsOf cfg images.length := Nat.lt_of_succ_lt hr
    rw [rowTopP, ih hr', rowHeightP_eq hH hH0 hr']
    push_cast
    ring

theorem foldl_width_gap_acc {W g : ℚ} :
    ∀ (l : List Item) (acc : ℚ), (∀ x ∈ l, x.width = W) →
      l.foldl (fun acc img => acc + (img.width + g)) acc
        = acc + l.length * (W + g) := by
  intro l
  induction l with
  | nil => intro acc _; simp
  | cons b t ih =>
    intro acc hall
    rw [List.foldl_cons, hall b (List.mem_cons_self ..),
      ih (acc + (W + g)) (fun x hx => hall x (List.mem_cons_of_mem _ hx))]
    simp only [List.length_cons]
    push_cast
    ring

theorem cursorXP_eq {images : List Item} {cols : Nat} {W : ℚ} (g : ℚ)
    (hc : 0 < cols) (hW : ∀ x ∈ images, x.width = W) {i : Nat}
    (hi : i < images.length) :
    cursorXP images cols g i = ((i % cols : Nat) : ℚ) * (W + g) := by
  unfold cursorXP
  rw [foldl_width_gap_acc _ 0
    (fun x hx => hW x (List.drop_subset _ _ (List.take_subset _ _ hx)))]
  rw [List.length_take, List.length_drop]
  have hdm := Nat.div_add_mod i cols
  have hmlt : i % cols < cols := Nat.mod_lt _ hc
  have hcomm : cols * (i / cols) = i / cols * cols := Nat.mul_comm _ _
  have hlen : (i - i / cols * cols) ⊓ (images.length - i / cols * cols)
      = i % cols := by omega
  rw [hlen]
  ring

theorem placePacked_eq_placeUniform
    {images : List Item} {cfg : LayoutConfig} {W H : ℚ}
    (hW : ∀ x ∈ images, x.width = W) (hH : ∀ x ∈ images, x.height = H)
    (hH0 : 0 ≤ H) (hne : images ≠ []) {i : Nat} (hi : i < images.length)
    {img : Item} (himg : img ∈ images) :
    placePacked images cfg i img = placeUniform images cfg i img := by
  have hc := colsOf_pos cfg
  have hw : img.width = W := hW img himg
  have hh : img.height = H := hH img himg
  have hmaxW : maxQ (images.map Item.width) = W :=
    maxQ_const (by simpa using hne) (by
      intro x hx; obtain ⟨m, hm, rfl⟩ := List.mem_map.mp hx; exact hW m hm)
  have hmaxH : maxQ (images.map Item.height) = H :=
    maxQ_const (by simpa using hne) (by
      intro x hx; obtain ⟨m, hm, rfl⟩ := List.mem_map.mp hx; exact hH m hm)
  have hr : i / colsOf cfg < rowsOf cfg images.length := div_lt_rowsOf cfg hi
  have hrows1 : 1 ≤ rowsOf cfg images.length :=
    rowsOf_pos cfg (List.length_pos.mpr hne)
  have hcur : cursorXP images (colsOf cfg) cfg.horizontalGap i
      = ((i % colsOf cfg : Nat) : ℚ) * (W + cfg.horizontalGap) :=
    cursorXP_eq _ hc hW hi
  have hrt : rowTopP images (colsOf cfg) cfg.verticalGap (i / colsOf cfg)
      = ((i / colsOf cfg : Nat) : ℚ) * (H + cfg.verticalGap) :=
    rowTopP_eq hH hH0 _ _ hr
  have hrh : rowHeightP images (colsOf cfg) (i / colsOf cfg) = H :=
    rowHeightP_eq hH hH0 hr
  have hmodlt : i % colsOf cfg < colsOf cfg := Nat.mod_lt _ hc
  have hcast_cols : ((colsOf cfg - 1 : Nat) : ℚ) = (colsOf cfg : ℚ) - 1 := by
    rw [Nat.cast_sub hc, Nat.cast_one]
  have hcast_colsub : ((colsOf cfg - 1 - i % colsOf cfg : Nat) : ℚ)
      = (colsOf cfg : ℚ) - 1 - ((i % colsOf cfg : Nat) : ℚ) := by
    rw [Nat.cast_sub (by omega), hcast_cols]
  have hcast_rows : ((rowsOf cfg images.length - 1 : Nat) : ℚ)
      = (rowsOf cfg images.length : ℚ) - 1 := by
    rw [Nat.cast_sub hrows1, Nat.cast_one]
  have hcast_rowsub : ((rowsOf cfg images.length - 1 - i / colsOf cfg : Nat) : ℚ)
      = (rowsOf cfg images.length : ℚ) - 1 - ((i / colsOf cfg : Nat) : ℚ) := by
    rw [Nat.cast_sub (by omega), hcast_rows]
  have hx : originLeftP images cfg
      + (if cfg.startCorner.fromLeft then baseXP images cfg i img
         else gridWP images cfg - baseXP images cfg i img)
      = originLeftU images cfg + (colFL cfg i : ℚ) * cellW images cfg
        + img.width / 2 := by
    by_cases hfl : cfg.startCorner.fromLeft = true
    · have e1 : originLeftP images cfg = bboxLeft images := by
        simp [originLeftP, hfl]
      have e2 : originLeftU images cfg = bboxLeft images := by
        simp [originLeftU, hfl]
      have e3 : colFL cfg i = i % colsOf cfg := by simp [colFL, hfl]
      rw [e1, e2, e3, if_pos hfl]
      unfold baseXP cellW
      rw [hcur, hw, hmaxW]
      ring
    · have hfl' : cfg.startCorner.fromLeft = false := by simpa using hfl
      have e1 : originLeftP images cfg = bboxRight images - gridWP images cfg := by
        simp [originLeftP, hfl']
      have e2 : originLeftU images cfg = bboxRight images - gridWU images cfg := by
        simp [originLeftU, hfl']
      have e3 : colFL cfg i = colsOf cfg - 1 - i % colsOf cfg := by
        simp [colFL, hfl']
      rw [e1, e2, e3, if_neg hfl]
      unfold baseXP gridWU cellW
      rw [hcur, hw, hmaxW, hcast_colsub, hcast_cols]
      ring
  have hy : originTopP images cfg
      + (if cfg.startCorner.fromTop then baseYP images cfg i
         else gridHP images cfg - baseYP images cfg i)
      = originTopU images cfg + (rowFT cfg images.length i : ℚ)
        * cellH images cfg + img.height / 2 := by
    by_cases hft : cfg.startCorner.fromTop = true
    · have e1 : originTopP images cfg = bboxTop images := by
        simp [originTopP, hft]
      have e2 : originTopU images cfg = bboxTop images := by
        simp [originTopU, hft]
      have e3 : rowFT cfg images.length i = i / colsOf cfg := by
        simp [rowFT, hft]
      rw [e1, e2, e3, if_pos hft]
      unfold baseYP cellH
      rw [hrt, hrh, hh, hmaxH]
      ring
    · have hft' : cfg.startCorner.fromTop = false := by simpa using hft
      have e1 : originTopP images cfg = bboxBottom images - gridHP images cfg := by
        simp [originTopP, hft']
      have e2 : originTopU images cfg = bboxBottom images - gridHU images cfg := by
        simp [originTopU, hft']
      have e3 : rowFT cfg images.length i
          = rowsOf cfg images.length - 1 - i / colsOf cfg := by
        simp [rowFT, hft']
      rw [e1, e2, e3, if_neg hft]
      unfold baseYP gridHU cellH
      rw [hrt, hrh, hh, hmaxH, hcast_rowsub, hcast_rows]
      ring
  unfold placePacked placeUniform
  rw [hx, hy]

theorem align_eq_of_common_size {images : List Item} {cfg : LayoutConfig}
    {W H : ℚ} (hW : ∀ x ∈ images, x.width = W)
    (hH : ∀ x ∈ images, x.height = H) (hH0 : 0 ≤ H) :
    alignPacked images cfg = alignUniform images cfg := by
  rcases eq_or_ne images [] with rfl | hne
  · rfl
  · have hres := applyResize_commonSize hW hH cfg
    rw [alignPacked_eq hne hres, alignUniform_eq hne hres]
    apply List.ext_getElem
    · rw [mapWithIndexFrom_length, mapWithIndexFrom_length]
    · intro i h1 h2
      have hi : i < images.length := by rwa [mapWithIndexFrom_length] at h1
      rw [mapWithIndexFrom_getElem _ 0 _ i h1 hi,
          mapWithIndexFrom_getElem _ 0 _ i h2 hi, Nat.zero_add]
      exact placePacked_eq_placeUniform hW hH hH0 hne hi (images.getElem_mem hi)

/-- C6: on common-size inputs (every item of width `W` and height `H ≥ 0`,
any column count, any gaps, any anchor corner, any size mode), the
uniform-mode placement that inverts row/column indices per anchor corner
(`alignUniform`) and the packed-mode placement that mirrors
top-left-relative coordinates across the grid and translates to the anchor
origin (`alignPacked`) produce identical items — in particular identical
final centre coordinates for every item. -/
theorem C6_uniform_packed_equal (images : List Item) (cfg : LayoutConfig)
    (W H : ℚ) (hW : ∀ x ∈ images, x.width = W)
    (hH : ∀ x ∈ images, x.height = H) (hH0 : 0 ≤ H) :
    alignPacked images cfg = alignUniform images cfg :=
  align_eq_of_common_size hW hH hH0

/-- Five common-size items for the C6 witness. -/
def c6List : List Item :=
  [{ id := 0, title := [], x := -2, y := 0, width := 2, height := 3,
     metadataBrightness := none, url := none },
   { id := 1, title := [], x := 3, y := 3, width := 2, height := 3,
     metadataBrightness := none, url := none },
   { id := 2, title := [], x := 8, y := 6, width := 2, height := 3,
     metadataBrightness := none, url := none },
   { id := 3, title := [], x := 13, y := 9, width := 2, height := 3,
     metadataBrightness := none, url := none },
   { id := 4, title := [], x := 18, y := 12, width := 2, height := 3,
     metadataBrightness := none, url := none }]

/-- Config for the C6 witness: 2 columns, non-zero gaps, bottom-right
anchor. -/
def c6Cfg : LayoutConfig :=
  { imagesPerRow := 2, horizontalGap := 1, verticalGap := 2,
    sizeMode := SizeMode.none, startCorner := Corner.bottomRight }

/-- C6 witness: the equivalence instantiated at five common-size items with
a bottom-right anchor and non-zero gaps. -/
theorem C6_uniform_packed_equal_witness :
    (∀ x ∈ c6List, x.width = 2) ∧ (∀ x ∈ c6List, x.height = 3)
    ∧ (0 : ℚ) ≤ 3
    ∧ alignPacked c6List c6Cfg = alignUniform c6List c6Cfg :=
  ⟨by decide, by decide, by decide,
   C6_uniform_packed_equal c6List c6Cfg 2 3 (by decide) (by decide) (by decide)⟩

/-- First item of the C3 counterexample (width 2). -/
def c3ItemA : Item :=
  { id := 0, title := [], x := 1, y := 1, width := 2, height := 2,
    metadataBrightness := none, url := none }

/-- Second item of the C3 counterexample (width 6, the widest). -/
def c3ItemB : Item :=
  { id := 1, title := [], x := 20, y := 1, width := 6, height := 2,
    metadataBrightness := none, url := none }

/-- Input list of the C3 counterexample. -/
def c3List : List Item := [c3ItemA, c3ItemB]

/-- Config of the C3 counterexample: 2 columns, zero gaps, top-right anchor. -/
def c3Cfg : LayoutConfig :=
  { imagesPerRow := 2, horizontalGap := 0, verticalGap := 0,
    sizeMode := SizeMode.none, startCorner := Corner.topRight }

/-- C3 counterexample: with anchor top-right and items of different widths,
the placed items' bounding box does NOT reach the original maximum right
(the widest item is not in the rightmost column, and the uniform variant
places items at the left of their `maxWidth`-wide cells): the new right edge
is 19 while the original is 23.  The top edge does coincide. -/
theorem C3_counterexample :
    c3Cfg.startCorner = Corner.topRight
    ∧ bboxTop (alignUniform c3List c3Cfg) = bboxTop c3List
    ∧ bboxRight (alignUniform c3List c3Cfg) ≠ bboxRight c3List := by
  norm_num [alignUniform, placeUniform, applyResize, mapWithIndexFrom,
    originLeftU, originTopU, colFL, rowFT, cellW, cellH, gridWU, gridHU,
    colsOf, rowsOf, bboxLeft, bboxTop, bboxRight, bboxBottom, minQ, maxQ,
    itemLeft, itemTop, itemRight, itemBottom, c3List, c3Cfg, c3ItemA, c3ItemB,
    Corner.fromTop, Corner.fromLeft, max_def, min_def]

/-- Index-aware membership: an element of the indexed map is the image of
its position. -/
theorem mem_mapWithIndexFrom_getElem {f : Nat → α → β} {k : Nat} {l : List α}
    {b : β} (h : b ∈ mapWithIndexFrom f k l) :
    ∃ i, ∃ hi : i < l.length, b = f (k + i) l[i] := by
  induction l generalizing k with
  | nil => simp [mapWithIndexFrom] at h
  | cons a rest ih =>
    rcases List.mem_cons.mp h with rfl | h
    · exact ⟨0, by simp, by simp⟩
    · obtain ⟨i, hi, hb⟩ := ih h
      refine ⟨i + 1, by simpa using hi, ?_⟩
      rw [hb]
      congr 1
      omega

theorem maxQ_nonneg {l : List ℚ} (hne : l ≠ []) (h : ∀ x ∈ l, 0 ≤ x) :
    0 ≤ maxQ l := by
  cases l with
  | nil => exact absurd rfl hne
  | cons a rest =>
    exact le_trans (h a (List.mem_cons_self ..)) (le_maxQ (List.mem_cons_self ..))

theorem applyResize_length (cfg : LayoutConfig) (images : List Item) :
    (applyResize cfg images).length = images.length := by
  cases hm : cfg.sizeMode <;> simp [applyResize, hm]

theorem applyResize_ne_nil {cfg : LayoutConfig} {images : List Item}
    (hne : images ≠ []) : applyResize cfg images ≠ [] := by
  rw [← List.length_pos, applyResize_length]
  exact List.length_pos.mpr hne

theorem applyResize_width_nonneg {cfg : LayoutConfig} {images : List Item}
    (h : ∀ x ∈ images, 0 ≤ x.width) :
    ∀ x ∈ applyResize cfg images, 0 ≤ x.width := by
  intro x hx
  cases hm : cfg.sizeMode <;> rw [applyResize, hm] at hx
  · exact h x hx
  · obtain ⟨img, hmem, rfl⟩ := List.mem_map.mp hx
    show 0 ≤ minQ (images.map Item.width)
    have hmin := @minQ_mem (images.map Item.width)
      (by simpa using List.ne_nil_of_mem hmem)
    obtain ⟨img0, hm0, hw0⟩ := List.mem_map.mp hmin
    rw [← hw0]
    exact h img0 hm0
  · obtain ⟨img, hmem, rfl⟩ := List.mem_map.mp hx
    exact h img hmem

theorem applyResize_height_nonneg {cfg : LayoutConfig} {images : List Item}
    (h : ∀ x ∈ images, 0 ≤ x.height) :
    ∀ x ∈ applyResize cfg images, 0 ≤ x.height := by
  intro x hx
  cases hm : cfg.sizeMode <;> rw [applyResize, hm] at hx
  · exact h x hx
  · obtain ⟨img, hmem, rfl⟩ := List.mem_map.mp hx
    exact h img hmem
  · obtain ⟨img, hmem, rfl⟩ := List.mem_map.mp hx
    show 0 ≤ minQ (images.map Item.height)
    have hmin := @minQ_mem (images.map Item.height)
      (by simpa using List.ne_nil_of_mem hmem)
    obtain ⟨img0, hm0, hh0⟩ := List.mem_map.mp hmin
    rw [← hh0]
    exact h img0 hm0

theorem alignUniform_resized {images : List Item} {cfg : LayoutConfig}
    (hne : images ≠ []) :
    alignUniform images cfg
      = mapWithIndexFrom (placeUniform (applyResize cfg images) cfg) 0
        (applyResize cfg images) := by
  unfold alignUniform
  rw [if_neg (by simpa [List.isEmpty_iff] using hne)]

theorem alignPacked_resized {images : List Item} {cfg : LayoutConfig}
    (hne : images ≠ []) :
    alignPacked images cfg
      = mapWithIndexFrom (placePacked (applyResize cfg images) cfg) 0
        (applyResize cfg images) := by
  unfold alignPacked
  rw [if_neg (by simpa [List.isEmpty_iff] using hne)]

theorem cursorXP_zero (images : List Item) (cols : Nat) (g : ℚ) :
    cursorXP images cols g 0 = 0 := by
  unfold cursorXP
  rw [Nat.zero_div, Nat.zero_mul, Nat.zero_sub, List.take_zero]
  rfl

theorem foldl_width_gap_nonneg {g : ℚ} (hg : 0 ≤ g) :
    ∀ (l : List Item) (acc : ℚ), (∀ x ∈ l, 0 ≤ x.width) → 0 ≤ acc →
      0 ≤ l.foldl (fun acc img => acc + (img.width + g)) acc := by
  intro l
  induction l with
  | nil => intro acc _ hacc; exact hacc
  | cons b t ih =>
    intro acc hall hacc
    rw [List.foldl_cons]
    refine ih _ (fun x hx => hall x (List.mem_cons_of_mem _ hx)) ?_
    have hb := hall b (List.mem_cons_self ..)
    linarith

theorem cursorXP_nonneg {images : List Item} {cols : Nat} {g : ℚ}
    (hg : 0 ≤ g) (hW0 : ∀ x ∈ images, 0 ≤ x.width) (i : Nat) :
    0 ≤ cursorXP images cols g i := by
  unfold cursorXP
  exact foldl_width_gap_nonneg hg _ 0
    (fun x hx => hW0 x (List.drop_subset _ _ (List.take_subset _ _ hx)))
    le_rfl

theorem foldl_max_height_init_le :
    ∀ (l : List Item) (acc : ℚ),
      acc ≤ l.foldl (fun acc img => max acc img.height) acc := by
  intro l
  induction l with
  | nil => intro acc; exact le_refl acc
  | cons b t ih =>
    intro acc
    exact le_trans (le_max_left acc b.height) (ih (max acc b.height))

theorem foldl_max_height_le_mem :
    ∀ (l : List Item) (acc : ℚ) (x : Item), x ∈ l →
      x.height ≤ l.foldl (fun acc img => max acc img.height) acc := by
  intro l
  induction l with
  | nil => intro acc x hx; simp at hx
  | cons b t ih =>
    intro acc x hx
    rcases List.mem_cons.mp hx with rfl | hx'
    · exact le_trans (le_max_right acc x.height)
        (foldl_max_height_init_le t (max acc x.height))
    · exact ih (max acc b.height) x hx'

theorem foldl_max_height_mem_or :
    ∀ (l : List Item) (acc : ℚ),
      l.foldl (fun acc img => max acc img.height) acc = acc
      ∨ ∃ x ∈ l, l.foldl (fun acc img => max acc img.height) acc = x.height := by
  intro l
  induction l with
  | nil => intro acc; exact Or.inl rfl
  | cons b t ih =>
    intro acc
    rcases ih (max acc b.height) with h | ⟨x, hx, h⟩
    · rcases max_choice acc b.height with hm | hm
      · exact Or.inl (by rw [List.foldl_cons, h, hm])
      · exact Or.inr ⟨b, List.mem_cons_self .., by rw [List.foldl_cons, h, hm]⟩
    · exact Or.inr ⟨x, List.mem_cons_of_mem _ hx, by rw [List.foldl_cons, h]⟩

theorem rowHeightP_nonneg (images : List Item) (cols r : Nat) :
    0 ≤ rowHeightP images cols r :=
  foldl_max_height_init_le _ 0

theorem rowTopP_nonneg (images : List Item) (cols : Nat) {vg : ℚ}
    (hv : 0 ≤ vg) : ∀ r, 0 ≤ rowTopP images cols vg r := by
  intro r
  induction r with
  | zero => exact le_refl 0
  | succ r ih =>
    have := rowHeightP_nonneg images cols r
    rw [rowTopP]
    linarith

theorem getElem_mem_rowSliceP {L : List Item} {cols i : Nat}
    (hc : 0 < cols) (hi : i < L.length) :
    L[i] ∈ rowSliceP L cols (i / cols) := by
  have hmul : i / cols * cols ≤ i := Nat.div_mul_le_self i cols
  have hmod : i % cols < cols := Nat.mod_lt _ hc
  have hdm := Nat.div_add_mod i cols
  have hcomm : cols * (i / cols) = i / cols * cols := Nat.mul_comm _ _
  have hlen : i - i / cols * cols < (rowSliceP L cols (i / cols)).length := by
    unfold rowSliceP
    rw [List.length_take, List.length_drop]
    omega
  have heq : (rowSliceP L cols (i / cols))[i - i / cols * cols] = L[i] := by
    unfold rowSliceP
    rw [List.getElem_take, List.getElem_drop]
    congr 1
    omega
  exact heq ▸ List.getElem_mem hlen

theorem height_le_rowHeightP {L : List Item} {cols i : Nat}
    (hc : 0 < cols) (hi : i < L.length) :
    L[i].height ≤ rowHeightP L cols (i / cols) :=
  foldl_max_height_le_mem _ 0 _ (getElem_mem_rowSliceP hc hi)

/-- In row 0 there is an item whose height attains the row height (for
non-negative heights). -/
theorem exists_row0_height_attained {L : List Item} {cols : Nat}
    (hc : 0 < cols) (hne : L ≠ []) (hH0 : ∀ x ∈ L, 0 ≤ x.height) :
    ∃ j, ∃ hj : j < L.length, j / cols = 0
      ∧ L[j].height = rowHeightP L cols 0 := by
  have hslice : rowSliceP L cols 0 ≠ [] :=
    rowSliceP_ne_nil hc (by
      rw [Nat.zero_mul]
      exact List.length_pos.mpr hne)
  have hx : ∃ x ∈ rowSliceP L cols 0, rowHeightP L cols 0 = x.height := by
    rcases foldl_max_height_mem_or (rowSliceP L cols 0) 0 with h | h
    · cases hsl : rowSliceP L cols 0 with
      | nil => exact absurd hsl hslice
      | cons b t =>
        refine ⟨b, List.mem_cons_self .., ?_⟩
        have hble : b.height ≤ rowHeightP L cols 0 := by
          unfold rowHeightP
          exact foldl_max_height_le_mem _ 0 b (by rw [hsl]; exact List.mem_cons_self ..)
        have hb0 : 0 ≤ b.height :=
          hH0 b (mem_of_mem_rowSliceP (by rw [hsl]; exact List.mem_cons_self ..))
        have hr0 : rowHeightP L cols 0 = 0 := h
        linarith
    · exact h
  obtain ⟨x, hxmem, hxh⟩ := hx
  have hx' : x ∈ L.take cols := by
    have : rowSliceP L cols 0 = L.take cols := by
      unfold rowSliceP
      rw [Nat.zero_mul, List.drop_zero]
    rwa [this] at hxmem
  obtain ⟨j, hjlen, hjget⟩ := List.mem_iff_getElem.mp hx'
  have hjlt : j < cols := by
    rw [List.length_take] at hjlen
    omega
  have hjL : j < L.length := by
    rw [List.length_take] at hjlen
    omega
  refine ⟨j, hjL, Nat.div_eq_of_lt hjlt, ?_⟩
  have : (L.take cols)[j] = L[j] := List.getElem_take L
  rw [this] at hjget
  rw [hjget, ← hxh]

/-- The packed variant keeps every anchor-adjacent bounding-box edge exactly,
for arbitrary (non-negative) item sizes: the mirrored first item of each row
touches the left/right anchor edge, and the tallest item of row 0 (sent to
the extreme row by the mirroring) touches the top/bottom anchor edge. -/
theorem packed_anchor_edges (L : List Item) (cfg : LayoutConfig)
    (hne : L ≠ []) (hW0 : ∀ x ∈ L, 0 ≤ x.width) (hH0 : ∀ x ∈ L, 0 ≤ x.height)
    (hg : 0 ≤ cfg.horizontalGap) (hvg : 0 ≤ cfg.verticalGap) :
    (cfg.startCorner.fromTop = true →
      bboxTop (mapWithIndexFrom (placePacked L cfg) 0 L) = bboxTop L)
    ∧ (cfg.startCorner.fromTop = false →
      bboxBottom (mapWithIndexFrom (placePacked L cfg) 0 L) = bboxBottom L)
    ∧ (cfg.startCorner.fromLeft = true →
      bboxLeft (mapWithIndexFrom (placePacked L cfg) 0 L) = bboxLeft L)
    ∧ (cfg.startCorner.fromLeft = false →
      bboxRight (mapWithIndexFrom (placePacked L cfg) 0 L) = bboxRight L) := by
  have hc := colsOf_pos cfg
  have h0 : 0 < L.length := List.length_pos.mpr hne
  have hlen_out : (mapWithIndexFrom (placePacked L cfg) 0 L).length = L.length :=
    mapWithIndexFrom_length _ _ _
  have hmemi : ∀ i, (hi : i < L.length) →
      placePacked L cfg i L[i] ∈ mapWithIndexFrom (placePacked L cfg) 0 L := by
    intro i hi
    have hio : i < (mapWithIndexFrom (placePacked L cfg) 0 L).length := by
      rw [hlen_out]; exact hi
    have hg0 := mapWithIndexFrom_getElem (placePacked L cfg) 0 L i hio hi
    rw [Nat.zero_add] at hg0
    exact hg0 ▸ List.getElem_mem hio
  have helem : ∀ v ∈ mapWithIndexFrom (placePacked L cfg) 0 L,
      ∃ i, ∃ hi : i < L.length, v = placePacked L cfg i L[i] := by
    intro v hvm
    obtain ⟨i, hi, hb⟩ := mem_mapWithIndexFrom_getElem hvm
    rw [Nat.zero_add] at hb
    exact ⟨i, hi, hb⟩
  have htop0 : ∀ (i : Nat) (a : Item), itemTop (placePacked L cfg i a)
      = originTopP L cfg
        + (if cfg.startCorner.fromTop then baseYP L cfg i
           else gridHP L cfg - baseYP L cfg i) - a.height / 2 :=
    fun i a => rfl
  have hbottom0 : ∀ (i : Nat) (a : Item), itemBottom (placePacked L cfg i a)
      = originTopP L cfg
        + (if cfg.startCorner.fromTop then baseYP L cfg i
           else gridHP L cfg - baseYP L cfg i) + a.height / 2 :=
    fun i a => rfl
  have hleft0 : ∀ (i : Nat) (a : Item), itemLeft (placePacked L cfg i a)
      = originLeftP L cfg
        + (if cfg.startCorner.fromLeft then baseXP L cfg i a
           else gridWP L cfg - baseXP L cfg i a) - a.width / 2 :=
    fun i a => rfl
  have hright0 : ∀ (i : Nat) (a : Item), itemRight (placePacked L cfg i a)
      = originLeftP L cfg
        + (if cfg.startCorner.fromLeft then baseXP L cfg i a
           else gridWP L cfg - baseXP L cfg i a) + a.width / 2 :=
    fun i a => rfl
  refine ⟨?_, ?_, ?_, ?_⟩
  · -- top anchors: tallest item of row 0 touches the top edge
    intro hft
    have horig : originTopP L cfg = bboxTop L := by simp [originTopP, hft]
    have hform : ∀ (i : Nat) (a : Item), itemTop (placePacked L cfg i a)
        = bboxTop L + rowTopP L (colsOf cfg) cfg.verticalGap (i / colsOf cfg)
          + rowHeightP L (colsOf cfg) (i / colsOf cfg) / 2 - a.height / 2 := by
      intro i a
      rw [htop0, if_pos hft, horig]
      unfold baseYP
      ring
    show minQ ((mapWithIndexFrom (placePacked L cfg) 0 L).map itemTop) = bboxTop L
    apply minQ_eq_of
    · obtain ⟨j, hj, hjdiv, hjh⟩ := exists_row0_height_attained hc hne hH0
      rw [List.mem_map]
      refine ⟨placePacked L cfg j L[j], hmemi j hj, ?_⟩
      rw [hform, hjdiv, hjh, rowTopP]
      ring
    · intro v hvm
      obtain ⟨item, hitem, rfl⟩ := List.mem_map.mp hvm
      obtain ⟨i, hi, rfl⟩ := helem item hitem
      rw [hform]
      have h1 := rowTopP_nonneg L (colsOf cfg) hvg (i / colsOf cfg)
      have h2 := height_le_rowHeightP hc hi
      linarith
  · -- bottom anchors: tallest item of row 0 touches the bottom edge
    intro hft
    have horig : originTopP L cfg = bboxBottom L - gridHP L cfg := by
      simp [originTopP, hft]
    have hform : ∀ (i : Nat) (a : Item), itemBottom (placePacked L cfg i a)
        = bboxBottom L - rowTopP L (colsOf cfg) cfg.verticalGap (i / colsOf cfg)
          - rowHeightP L (colsOf cfg) (i / colsOf cfg) / 2 + a.height / 2 := by
      intro i a
      rw [hbottom0, if_neg (by simp [hft]), horig]
      unfold baseYP
      ring
    show maxQ ((mapWithIndexFrom (placePacked L cfg) 0 L).map itemBottom)
        = bboxBottom L
    apply maxQ_eq_of
    · obtain ⟨j, hj, hjdiv, hjh⟩ := exists_row0_height_attained hc hne hH0
      rw [List.mem_map]
      refine ⟨placePacked L cfg j L[j], hmemi j hj, ?_⟩
      rw [hform, hjdiv, hjh, rowTopP]
      ring
    · intro v hvm
      obtain ⟨item, hitem, rfl⟩ := List.mem_map.mp hvm
      obtain ⟨i, hi, rfl⟩ := helem item hitem
      rw [hform]
      have h1 := rowTopP_nonneg L (colsOf cfg) hvg (i / colsOf cfg)
      have h2 := height_le_rowHeightP hc hi
      linarith
  · -- left anchors: the first item of each row touches the left edge
    intro hfl
    have horig : originLeftP L cfg = bboxLeft L := by simp [originLeftP, hfl]
    have hform : ∀ (i : Nat) (a : Item), itemLeft (placePacked L cfg i a)
        = bboxLeft L + cursorXP L (colsOf cfg) cfg.horizontalGap i := by
      intro i a
      rw [hleft0, if_pos hfl, horig]
      unfold baseXP
      ring
    show minQ ((mapWithIndexFrom (placePacked L cfg) 0 L).map itemLeft) = bboxLeft L
    apply minQ_eq_of
    · rw [List.mem_map]
      refine ⟨placePacked L cfg 0 L[0], hmemi 0 h0, ?_⟩
      rw [hform, cursorXP_zero]
      ring
    · intro v hvm
      obtain ⟨item, hitem, rfl⟩ := List.mem_map.mp hvm
      obtain ⟨i, hi, rfl⟩ := helem item hitem
      rw [hform]
      have h1 := @cursorXP_nonneg L (colsOf cfg) cfg.horizontalGap hg hW0 i
      linarith
  · -- right anchors: the mirrored first item of each row touches the right edge
    intro hfl
    have horig : originLeftP L cfg = bboxRight L - gridWP L cfg := by
      simp [originLeftP, hfl]
    have hform : ∀ (i : Nat) (a : Item), itemRight (placePacked L cfg i a)
        = bboxRight L - cursorXP L (colsOf cfg) cfg.horizontalGap i := by
      intro i a
      rw [hright0, if_neg (by simp [hfl]), horig]
      unfold baseXP
      ring
    show maxQ ((mapWithIndexFrom (placePacked L cfg) 0 L).map itemRight)
        = bboxRight L
    apply maxQ_eq_of
    · rw [List.mem_map]
      refine ⟨placePacked L cfg 0 L[0], hmemi 0 h0, ?_⟩
      rw [hform, cursorXP_zero]
      ring
    · intro v hvm
      obtain ⟨item, hitem, rfl⟩ := List.mem_map.mp hvm
      obtain ⟨i, hi, rfl⟩ := helem item hitem
      rw [hform]
      have h1 := @cursorXP_nonneg L (colsOf cfg) cfg.horizontalGap hg hW0 i
      linarith

/-- The uniform variant keeps the top/left anchor-adjacent edges exactly for
arbitrary (non-negative) item sizes: items sit at the top-left of their
cells, so row 0 / column 0 touch the anchor edges. -/
theorem uniform_near_edges (L : List Item) (cfg : LayoutConfig)
    (hne : L ≠ []) (hW0 : ∀ x ∈ L, 0 ≤ x.width) (hH0 : ∀ x ∈ L, 0 ≤ x.height)
    (hg : 0 ≤ cfg.horizontalGap) (hvg : 0 ≤ cfg.verticalGap) :
    (cfg.startCorner.fromTop = true →
      bboxTop (mapWithIndexFrom (placeUniform L cfg) 0 L) = bboxTop L)
    ∧ (cfg.startCorner.fromLeft = true →
      bboxLeft (mapWithIndexFrom (placeUniform L cfg) 0 L) = bboxLeft L) := by
  have h0 : 0 < L.length := List.length_pos.mpr hne
  have hlen_out : (mapWithIndexFrom (placeUniform L cfg) 0 L).length = L.length :=
    mapWithIndexFrom_length _ _ _
  have hmemi : ∀ i, (hi : i < L.length) →
      placeUniform L cfg i L[i] ∈ mapWithIndexFrom (placeUniform L cfg) 0 L := by
    intro i hi
    have hio : i < (mapWithIndexFrom (placeUniform L cfg) 0 L).length := by
      rw [hlen_out]; exact hi
    have hg0 := mapWithIndexFrom_getElem (placeUniform L cfg) 0 L i hio hi
    rw [Nat.zero_add] at hg0
    exact hg0 ▸ List.getElem_mem hio
  have helem : ∀ v ∈ mapWithIndexFrom (placeUniform L cfg) 0 L,
      ∃ i a, a ∈ L ∧ v = placeUniform L cfg i a :=
    fun v hvm => mem_mapWithIndexFrom hvm
  have hcw0 : 0 ≤ cellW L cfg := by
    rw [cellW]
    refine add_nonneg (maxQ_nonneg (by simpa using hne) ?_) hg
    intro x hx
    obtain ⟨m, hm, rfl⟩ := List.mem_map.mp hx
    exact hW0 m hm
  have hch0 : 0 ≤ cellH L cfg := by
    rw [cellH]
    refine add_nonneg (maxQ_nonneg (by simpa using hne) ?_) hvg
    intro x hx
    obtain ⟨m, hm, rfl⟩ := List.mem_map.mp hx
    exact hH0 m hm
  have htop : ∀ (i : Nat) (a : Item), itemTop (placeUniform L cfg i a)
      = originTopU L cfg + (rowFT cfg L.length i : ℚ) * cellH L cfg := by
    intro i a
    show originTopU L cfg + (rowFT cfg L.length i : ℚ) * cellH L cfg
        + a.height / 2 - a.height / 2 = _
    ring
  have hleft : ∀ (i : Nat) (a : Item), itemLeft (placeUniform L cfg i a)
      = originLeftU L cfg + (colFL cfg i : ℚ) * cellW L cfg := by
    intro i a
    show originLeftU L cfg + (colFL cfg i : ℚ) * cellW L cfg
        + a.width / 2 - a.width / 2 = _
    ring
  constructor
  · intro hft
    have horig : originTopU L cfg = bboxTop L := by simp [originTopU, hft]
    show minQ ((mapWithIndexFrom (placeUniform L cfg) 0 L).map itemTop) = bboxTop L
    apply minQ_eq_of
    · rw [List.mem_map]
      refine ⟨placeUniform L cfg 0 L[0], hmemi 0 h0, ?_⟩
      rw [htop]
      have h00 : rowFT cfg L.length 0 = 0 := by simp [rowFT, hft, Nat.zero_div]
      rw [h00, horig]
      simp
    · intro v hvm
      obtain ⟨item, hitem, rfl⟩ := List.mem_map.mp hvm
      obtain ⟨i, a, ha, rfl⟩ := helem _ hitem
      rw [htop, horig]
      have := mul_nonneg (Nat.cast_nonneg (α := ℚ) (rowFT cfg L.length i)) hch0
      linarith
  · intro hfl
    have horig : originLeftU L cfg = bboxLeft L := by simp [originLeftU, hfl]
    show minQ ((mapWithIndexFrom (placeUniform L cfg) 0 L).map itemLeft) = bboxLeft L
    apply minQ_eq_of
    · rw [List.mem_map]
      refine ⟨placeUniform L cfg 0 L[0], hmemi 0 h0, ?_⟩
      rw [hleft]
      have h00 : colFL cfg 0 = 0 := by simp [colFL, hfl, Nat.zero_mod]
      rw [h00, horig]
      simp
    · intro v hvm
      obtain ⟨item, hitem, rfl⟩ := List.mem_map.mp hvm
      obtain ⟨i, a, ha, rfl⟩ := helem _ hitem
      rw [hleft, horig]
      have := mul_nonneg (Nat.cast_nonneg (α := ℚ) (colFL cfg i)) hcw0
      linarith

/-- With a common item size, the uniform variant also keeps the far
right/bottom anchor edges exactly (every cell is then exactly item-sized up
to gaps, and item 0 sits in the extreme column/row). -/
theorem uniform_far_edges_common (images : List Item) (cfg : LayoutConfig)
    (W H : ℚ) (hne : images ≠ [])
    (hW : ∀ x ∈ images, x.width = W) (hH : ∀ x ∈ images, x.height = H)
    (hW0 : 0 ≤ W) (hH0 : 0 ≤ H)
    (hg : 0 ≤ cfg.horizontalGap) (hvg : 0 ≤ cfg.verticalGap) :
    (cfg.startCorner.fromTop = false →
      bboxBottom (alignUniform images cfg) = bboxBottom images)
    ∧ (cfg.startCorner.fromLeft = false →
      bboxRight (alignUniform images cfg) = bboxRight images) := by
  have hres := applyResize_commonSize hW hH cfg
  have hout := alignUniform_eq hne hres
  have hc := colsOf_pos cfg
  have h0 : 0 < images.length := List.length_pos.mpr hne
  have hrows1 : 1 ≤ rowsOf cfg images.length := rowsOf_pos cfg h0
  have hmaxW : maxQ (images.map Item.width) = W :=
    maxQ_const (by simpa using hne) (by
      intro x hx; obtain ⟨m, hm, rfl⟩ := List.mem_map.mp hx; exact hW m hm)
  have hmaxH : maxQ (images.map Item.height) = H :=
    maxQ_const (by simpa using hne) (by
      intro x hx; obtain ⟨m, hm, rfl⟩ := List.mem_map.mp hx; exact hH m hm)
  have hcw : cellW images cfg = W + cfg.horizontalGap := by rw [cellW, hmaxW]
  have hch : cellH images cfg = H + cfg.verticalGap := by rw [cellH, hmaxH]
  have hgw : gridWU images cfg = (colsOf cfg : ℚ) * W
      + ((colsOf cfg : ℚ) - 1) * cfg.horizontalGap := by
    rw [gridWU, hmaxW, Nat.cast_sub hc, Nat.cast_one]
  have hgh : gridHU images cfg = (rowsOf cfg images.length : ℚ) * H
      + ((rowsOf cfg images.length : ℚ) - 1) * cfg.verticalGap := by
    rw [gridHU, hmaxH, Nat.cast_sub hrows1, Nat.cast_one]
  have hlen_out : (mapWithIndexFrom (placeUniform images cfg) 0 images).length
      = images.length := mapWithIndexFrom_length _ _ _
  have h0out : 0 < (mapWithIndexFrom (placeUniform images cfg) 0 images).length := by
    rw [hlen_out]; exact h0
  have hget0 : (mapWithIndexFrom (placeUniform images cfg) 0 images)[0]
      = placeUniform images cfg 0 images[0] := by
    have := mapWithIndexFrom_getElem (placeUniform images cfg) 0 images 0 h0out h0
    rwa [Nat.zero_add] at this
  have helem : ∀ v ∈ mapWithIndexFrom (placeUniform images cfg) 0 images,
      ∃ i a, a ∈ images ∧ v = placeUniform images cfg i a :=
    fun v hvm => mem_mapWithIndexFrom hvm
  have hmem0 : placeUniform images cfg 0 images[0]
      ∈ mapWithIndexFrom (placeUniform images cfg) 0 images := by
    rw [← hget0]
    exact List.getElem_mem _
  have hright : ∀ i a, a ∈ images → itemRight (placeUniform images cfg i a)
      = originLeftU images cfg + (colFL cfg i : ℚ) * cellW images cfg + W := by
    intro i a ha
    show originLeftU images cfg + (colFL cfg i : ℚ) * cellW images cfg
        + a.width / 2 + a.width / 2 = _
    rw [hW a ha]
    ring
  have hbottom : ∀ i a, a ∈ images → itemBottom (placeUniform images cfg i a)
      = originTopU images cfg
        + (rowFT cfg images.length i : ℚ) * cellH images cfg + H := by
    intro i a ha
    show originTopU images cfg
        + (rowFT cfg images.length i : ℚ) * cellH images cfg
        + a.height / 2 + a.height / 2 = _
    rw [hH a ha]
    ring
  have hcw0 : 0 ≤ cellW images cfg := by rw [hcw]; exact add_nonneg hW0 hg
  have hch0 : 0 ≤ cellH images cfg := by rw [hch]; exact add_nonneg hH0 hvg
  constructor
  · intro hft
    have horig : originTopU images cfg = bboxBottom images - gridHU images cfg := by
      simp [originTopU, hft]
    have hmain : bboxBottom (alignUniform images cfg) = bboxBottom images := by
      rw [hout]
      show maxQ ((mapWithIndexFrom (placeUniform images cfg) 0 images).map
        itemBottom) = bboxBottom images
      apply maxQ_eq_of
      · rw [List.mem_map]
        refine ⟨placeUniform images cfg 0 images[0], hmem0, ?_⟩
        rw [hbottom 0 images[0] (images.getElem_mem h0)]
        have h00 : rowFT cfg images.length 0
            = rowsOf cfg images.length - 1 := by
          simp [rowFT, hft, Nat.zero_div]
        rw [h00, horig, hgh, hch, Nat.cast_sub hrows1, Nat.cast_one]
        ring
      · intro v hvm
        obtain ⟨item, hitem, rfl⟩ := List.mem_map.mp hvm
        obtain ⟨i, a, ha, rfl⟩ := helem _ hitem
        rw [hbottom i a ha, horig, hgh, hch]
        have hle : (rowFT cfg images.length i : ℚ)
            ≤ (rowsOf cfg images.length : ℚ) - 1 := by
          have h1 : rowFT cfg images.length i ≤ rowsOf cfg images.length - 1 := by
            unfold rowFT
            rw [if_neg (by simp [hft])]
            exact Nat.sub_le _ _
          calc (rowFT cfg images.length i : ℚ)
              ≤ ((rowsOf cfg images.length - 1 : Nat) : ℚ) := Nat.cast_le.mpr h1
            _ = (rowsOf cfg images.length : ℚ) - 1 := by
                rw [Nat.cast_sub hrows1, Nat.cast_one]
        nlinarith [hch0, hle, hch]
    exact hmain
  · intro hfl
    have horig : originLeftU images cfg = bboxRight images - gridWU images cfg := by
      simp [originLeftU, hfl]
    have hmain : bboxRight (alignUniform images cfg) = bboxRight images := by
      rw [hout]
      show maxQ ((mapWithIndexFrom (placeUniform images cfg) 0 images).map
        itemRight) = bboxRight images
      apply maxQ_eq_of
      · rw [List.mem_map]
        refine ⟨placeUniform images cfg 0 images[0], hmem0, ?_⟩
        rw [hright 0 images[0] (images.getElem_mem h0)]
        have h00 : colFL cfg 0 = colsOf cfg - 1 := by
          simp [colFL, hfl, Nat.zero_mod]
        rw [h00, horig, hgw, hcw, Nat.cast_sub hc, Nat.cast_one]
        ring
      · intro v hvm
        obtain ⟨item, hitem, rfl⟩ := List.mem_map.mp hvm
        obtain ⟨i, a, ha, rfl⟩ := helem _ hitem
        rw [hright i a ha, horig, hgw, hcw]
        have hle : (colFL cfg i : ℚ) ≤ (colsOf cfg : ℚ) - 1 := by
          have h1 : colFL cfg i ≤ colsOf cfg - 1 := by
            unfold colFL
            rw [if_neg (by simp [hfl])]
            exact Nat.sub_le _ _
          calc (colFL cfg i : ℚ) ≤ ((colsOf cfg - 1 : Nat) : ℚ) :=
                Nat.cast_le.mpr h1
            _ = (colsOf cfg : ℚ) - 1 := by rw [Nat.cast_sub hc, Nat.cast_one]
        nlinarith [hcw0, hle, hcw]
    exact hmain

/-- C3 (amended): the packed variant satisfies the anchor-corner property as
originally claimed, for every non-empty item list with non-negative sizes
and gaps and every config: the bounding box of the newly placed items has
its chosen anchor corner coinciding with the same corner of the pre-layout
bounding box (computed, as in the source, from the possibly-resized
geometry `applyResize cfg images`).  The uniform variant guarantees this in
general only for the anchor-adjacent top/left edges; its far right/bottom
edges can fall short with variable sizes (see the counterexample) and
coincide when all items share one width and height. -/
theorem C3_anchor_corner (images : List Item) (cfg : LayoutConfig)
    (hne : images ≠ [])
    (hw0 : ∀ x ∈ images, 0 ≤ x.width) (hh0 : ∀ x ∈ images, 0 ≤ x.height)
    (hg : 0 ≤ cfg.horizontalGap) (hvg : 0 ≤ cfg.verticalGap) :
    (cfg.startCorner.fromTop = true →
      bboxTop (alignPacked images cfg) = bboxTop (applyResize cfg images)
      ∧ bboxTop (alignUniform images cfg) = bboxTop (applyResize cfg images))
    ∧ (cfg.startCorner.fromLeft = true →
      bboxLeft (alignPacked images cfg) = bboxLeft (applyResize cfg images)
      ∧ bboxLeft (alignUniform images cfg) = bboxLeft (applyResize cfg images))
    ∧ (cfg.startCorner.fromTop = false →
      bboxBottom (alignPacked images cfg) = bboxBottom (applyResize cfg images))
    ∧ (cfg.startCorner.fromLeft = false →
      bboxRight (alignPacked images cfg) = bboxRight (applyResize cfg images))
    ∧ (∀ W H, (∀ x ∈ images, x.width = W) → (∀ x ∈ images, x.height = H) →
        (cfg.startCorner.fromTop = false →
          bboxBottom (alignUniform images cfg) = bboxBottom images)
        ∧ (cfg.startCorner.fromLeft = false →
          bboxRight (alignUniform images cfg) = bboxRight images)) := by
  have hLne : applyResize cfg images ≠ [] := applyResize_ne_nil hne
  have hLw : ∀ x ∈ applyResize cfg images, 0 ≤ x.width :=
    applyResize_width_nonneg hw0
  have hLh : ∀ x ∈ applyResize cfg images, 0 ≤ x.height :=
    applyResize_height_nonneg hh0
  have hpacked := @alignPacked_resized images cfg hne
  have huni := @alignUniform_resized images cfg hne
  have hPA := packed_anchor_edges (applyResize cfg images) cfg hLne hLw hLh hg hvg
  have hUN := uniform_near_edges (applyResize cfg images) cfg hLne hLw hLh hg hvg
  refine ⟨?_, ?_, ?_, ?_, ?_⟩
  · intro hft
    exact ⟨by rw [hpacked]; exact hPA.1 hft, by rw [huni]; exact hUN.1 hft⟩
  · intro hfl
    exact ⟨by rw [hpacked]; exact hPA.2.2.1 hfl, by rw [huni]; exact hUN.2 hfl⟩
  · intro hft
    rw [hpacked]
    exact hPA.2.1 hft
  · intro hfl
    rw [hpacked]
    exact hPA.2.2.2 hfl
  · intro W H hW hH
    have hW0 : 0 ≤ W := by
      cases images with
      | nil => exact absurd rfl hne
      | cons a rest =>
        have := hw0 a (List.mem_cons_self ..)
        rwa [hW a (List.mem_cons_self ..)] at this
    have hH0 : 0 ≤ H := by
      cases images with
      | nil => exact absurd rfl hne
      | cons a rest =>
        have := hh0 a (List.mem_cons_self ..)
        rwa [hH a (List.mem_cons_self ..)] at this
    exact uniform_far_edges_common images cfg W H hne hW hH hW0 hH0 hg hvg

/-- Three variable-size items for the C3 witness. -/
def c3wList : List Item :=
  [{ id := 0, title := [], x := 1, y := 1, width := 2, height := 2,
     metadataBrightness := none, url := none },
   { id := 1, title := [], x := 10, y := 3, width := 6, height := 4,
     metadataBrightness := none, url := none },
   { id := 2, title := [], x := 20, y := 2, width := 4, height := 2,
     metadataBrightness := none, url := none }]

/-- Config for the C3 witness: 2 columns, gaps 1 and 2, bottom-right anchor. -/
def c3wCfg : LayoutConfig :=
  { imagesPerRow := 2, horizontalGap := 1, verticalGap := 2,
    sizeMode := SizeMode.none, startCorner := Corner.bottomRight }

/-- C3 witness: the amended anchor-corner property instantiated at three
variable-size items with a bottom-right anchor. -/
theorem C3_anchor_corner_witness :
    c3wList ≠ []
    ∧ (∀ x ∈ c3wList, 0 ≤ x.width) ∧ (∀ x ∈ c3wList, 0 ≤ x.height)
    ∧ 0 ≤ c3wCfg.horizontalGap ∧ 0 ≤ c3wCfg.verticalGap
    ∧ ((c3wCfg.startCorner.fromTop = true →
        bboxTop (alignPacked c3wList c3wCfg)
            = bboxTop (applyResize c3wCfg c3wList)
        ∧ bboxTop (alignUniform c3wList c3wCfg)
            = bboxTop (applyResize c3wCfg c3wList))
      ∧ (c3wCfg.startCorner.fromLeft = true →
        bboxLeft (alignPacked c3wList c3wCfg)
            = bboxLeft (applyResize c3wCfg c3wList)
        ∧ bboxLeft (alignUniform c3wList c3wCfg)
            = bboxLeft (applyResize c3wCfg c3wList))
      ∧ (c3wCfg.startCorner.fromTop = false →
        bboxBottom (alignPacked c3wList c3wCfg)
            = bboxBottom (applyResize c3wCfg c3wList))
      ∧ (c3wCfg.startCorner.fromLeft = false →
        bboxRight (alignPacked c3wList c3wCfg)
            = bboxRight (applyResize c3wCfg c3wList))
      ∧ (∀ W H, (∀ x ∈ c3wList, x.width = W) → (∀ x ∈ c3wList, x.height = H) →
          (c3wCfg.startCorner.fromTop = false →
            bboxBottom (alignUniform c3wList c3wCfg) = bboxBottom c3wList)
          ∧ (c3wCfg.startCorner.fromLeft = false →
            bboxRight (alignUniform c3wList c3wCfg) = bboxRight c3wList))) :=
  ⟨by decide, by decide, by decide, by decide, by decide,
   C3_anchor_corner c3wList c3wCfg (by decide) (by decide) (by decide)
     (by decide) (by decide)⟩
